import Mathlib

/-!
Shallow embedding of the Daxgen workflow generator.

The embedding follows `daxgen/daxgen.py` (class `Daxgen`: `read`, `write`,
`wrap`, `_label`, `_find_root`) and `daxgen/utils/dax2graphml.py`
(`parse_dax`, `stringify`).  Workflow graphs are finite directed graphs whose
nodes carry the networkx attribute dictionary used by the source
(`lfn`, `name`, `args`, `urls`, `sites`, `streams`).  The Pegasus document
builder (`Pegasus.DAX3`) and the XML/xmltodict layer are external to the
repository; the parts of their behaviour the source relies on are modelled
from the spec and marked as such in the doc comments.
-/

deriving instance DecidableEq for Except

namespace DG

/-- Python `str.split()` : maximal runs of non-whitespace characters.
Accumulator based so that it reduces structurally in the kernel. -/
def wordsAux : List Char → List Char → List (List Char)
  | [], cur => if cur = [] then [] else [cur.reverse]
  | c :: cs, cur =>
    if c.isWhitespace then
      if cur = [] then wordsAux cs [] else cur.reverse :: wordsAux cs []
    else wordsAux cs (c :: cur)

/-- Python `str.split()` with no separator argument. -/
def words (l : List Char) : List (List Char) := wordsAux l []

/-- Python `' '.join`. -/
def joinSp : List (List Char) → List Char
  | [] => []
  | [w] => w
  | w :: ws => w ++ ' ' :: joinSp ws

/-- Python `str.split(sep)` for a one-character separator. -/
def splitOnChar (sep : Char) : List Char → List (List Char)
  | [] => [[]]
  | c :: cs =>
    match splitOnChar sep cs with
    | [] => [[c]]
    | p :: ps => if c = sep then [] :: p :: ps else (c :: p) :: ps

/-- Python `sep.join` for a one-character separator. -/
def joinOnChar (sep : Char) : List (List Char) → List Char
  | [] => []
  | [w] => w
  | w :: ws => w ++ sep :: joinOnChar sep ws

/-- Python `str.lower`. -/
def lowerChars (l : List Char) : List Char := l.map Char.toLower

/-- Drops trailing `'/'` characters (`str.rstrip('/')`). -/
def rstripSlash (l : List Char) : List Char :=
  (l.reverse.dropWhile (fun c => c = '/')).reverse

/-- Python `os.path.dirname`: everything up to the last `'/'`, with trailing
slashes stripped unless the head consists only of slashes. -/
def dirnameChars (p : List Char) : List Char :=
  let i := match p.reverse.findIdx? (fun c => c = '/') with
    | none => 0
    | some k => p.length - k
  let head := p.take i
  if head ≠ [] ∧ ¬ head.all (fun c => c = '/') then rstripSlash head else head

/-- String-level wrapper for `words` (Python `args.split()`). -/
def splitWsStr (s : String) : List String := (words s.data).map (fun w => ⟨w⟩)

/-- String-level wrapper for `joinSp` (Python `' '.join(...)`). -/
def joinSpStr (xs : List String) : String := ⟨joinSp (xs.map String.data)⟩

/-- String-level wrapper for `splitOnChar ','` (Python `s.split(',')`). -/
def splitCommaStr (s : String) : List String :=
  (splitOnChar ',' s.data).map (fun w => ⟨w⟩)

/-- String-level wrapper for `joinOnChar ','` (Python `','.join(...)`). -/
def joinCommaStr (xs : List String) : String := ⟨joinOnChar ',' (xs.map String.data)⟩

/-! ## The workflow graph -/

/-- Attribute dictionary of a networkx node as used by the source: `lfn`,
`urls`, `sites`, `streams` belong to file nodes, `name` and `args` to task
nodes; an absent key is `none`. -/
structure Attrs where
  lfn : Option String := none
  name : Option String := none
  args : Option String := none
  urls : Option String := none
  sites : Option String := none
  streams : Option Nat := none
deriving DecidableEq

/-- A directed graph with node attributes (`networkx.DiGraph`): node ids with
their attribute dictionaries, plus the edge list. -/
structure Graph where
  nodes : List (Nat × Attrs)
  edges : List (Nat × Nat)
deriving DecidableEq

def Graph.ids (g : Graph) : List Nat := g.nodes.map Prod.fst

/-- Attribute dictionary of a node (`graph.node[v]`). -/
def Graph.attr (g : Graph) (v : Nat) : Attrs := (g.nodes.lookup v).getD {}

/-- `graph.predecessors(v)`. -/
def preds (g : Graph) (v : Nat) : List Nat :=
  (g.edges.filter (fun e => e.2 == v)).map Prod.fst

/-- `graph.successors(v)`. -/
def succs (g : Graph) (v : Nat) : List Nat :=
  (g.edges.filter (fun e => e.1 == v)).map Prod.snd

/-- A graph is well formed when every edge endpoint is a node id. -/
def WellFormed (g : Graph) : Prop :=
  ∀ e ∈ g.edges, e.1 ∈ g.ids ∧ e.2 ∈ g.ids

/-- Python exceptions raised (directly or by the libraries driven) by the
source: `structureError` is the `ValueError("Graph is not bipartite.")`,
`duplicateError` the builder's duplicate-logical-name rejection,
`valueError`/`indexError` the failures of `stringify`, `attributeError` the
access to the never-initialized `files`/`tasks` sets, `nameError` the unbound
loop variable of `_find_root`, `notFoundError` the builder's `getJob` miss,
and `stopIteration` the `next(iter(U))` on an empty set. -/
inductive DaxErr where
  | structureError
  | duplicateError
  | keyError
  | valueError
  | indexError
  | attributeError
  | nameError
  | notFoundError
  | stopIteration
deriving DecidableEq

/-! ## Bipartite classification (`Daxgen._label`) -/

/-- All assignments of a colour to each listed node, as association lists. -/
def colorings : List Nat → List (List (Nat × Bool))
  | [] => [[]]
  | i :: is =>
    (colorings is).flatMap (fun m => [(i, true) :: m, (i, false) :: m])

/-- Whether a colour assignment is a proper two-coloring of the graph viewed
as undirected: the endpoints of every edge get distinct colours. -/
def properOn (g : Graph) (m : List (Nat × Bool)) : Bool :=
  g.edges.all (fun e => m.lookup e.1 != m.lookup e.2)

/-- A proper two-coloring as a predicate on colour functions. -/
def IsProperColoring (g : Graph) (c : Nat → Bool) : Prop :=
  ∀ e ∈ g.edges, c e.1 ≠ c e.2

/-- Modelled from the spec: `networkx.bipartite.color` (the networkx library
is an external dependency, absent from the repository) two-colors the graph
viewed as undirected and raises `NetworkXError` exactly when no proper
two-coloring exists; `_label` converts that failure into
`ValueError("Graph is not bipartite.")`. -/
def bipartiteColor (g : Graph) : Except DaxErr (List (Nat × Bool)) :=
  match (colorings g.ids).find? (properOn g) with
  | some m => .ok m
  | none => .error .structureError

/-- The attribute-based role resolution of `_label` (lines 214-226): given the
two coloring classes `U`, `V` and the representative `rep` drawn from `U`,
`U` is the file set when the representative's attributes contain `lfn`,
otherwise `V` is; every node is then tagged `1` (file) or `0` (task). -/
def labelTags (g : Graph) (U V : List Nat) (rep : Nat) : List (Nat × Nat) :=
  let files := if (g.attr rep).lfn.isSome then U else V
  g.ids.map (fun v => (v, if v ∈ files then 1 else 0))

/-- `Daxgen._label`: two-color the graph, derive the sets `U`, `V`
(`bipartite.sets`), pick the representative `next(iter(U))` and tag every
node with its role. -/
def label (g : Graph) : Except DaxErr (List (Nat × Nat)) := do
  let m ← bipartiteColor g
  let U := g.ids.filter (fun v => m.lookup v == some true)
  let V := g.ids.filter (fun v => m.lookup v == some false)
  match U.head? with
  | none => .error .stopIteration
  | some rep => .ok (labelTags g U V rep)

/-- The two lists form a valid two-coloring-induced bipartition of the graph:
together they enumerate the node ids and every edge crosses between them. -/
def ValidBipartition (g : Graph) (U V : List Nat) : Prop :=
  (U ++ V).Perm g.ids ∧
  ∀ e ∈ g.edges, (e.1 ∈ U ∧ e.2 ∈ V) ∨ (e.1 ∈ V ∧ e.2 ∈ U)

/-! ## The compiled document (the wire shape the DAX writer emits) -/

/-- A compiled job argument token: either a literal string or a reference to
the catalog file descriptor with the given logical name (`Pegasus.DAX3.File`
objects compare by name). -/
inductive Arg where
  | lit : String → Arg
  | file : String → Arg
deriving DecidableEq

/-- A catalog file entry of the wire document: logical name plus its
physical locations as (url, site) pairs. -/
structure DFile where
  name : String
  pfns : List (String × String)
deriving DecidableEq

/-- A job entry of the wire document: executable name, node id, compiled
argument vector, input and output usages (logical names), and the optional
stdout/stderr redirection targets. -/
structure DJob where
  name : String
  id : Nat
  args : List Arg
  usesIn : List String
  usesOut : List String
  stdout : Option String
  stderr : Option String
deriving DecidableEq

/-- The wire document (`Pegasus.ADAG` at the level the source touches):
named collections of files and jobs plus the dependency pairs
(parent id, child id). -/
structure Document where
  name : String
  files : List DFile
  jobs : List DJob
  deps : List (Nat × Nat)
deriving DecidableEq

/-! ## Workflow compilation (`Daxgen.write`, lines 84-155) -/

/-- Physical locations of a file node (write lines 92-99): split the
comma-separated `urls`; when `sites` is absent default it to
`','.join(len(urls) * ['local'])` — note that `len(urls)` is the length of
the URL *string* — then `zip` the two splits (truncating to the shorter). -/
def pfnsOf (a : Attrs) : List (String × String) :=
  match a.urls with
  | none => []
  | some u =>
    let sitesStr := match a.sites with
      | some s => s
      | none => joinCommaStr (List.replicate u.length "local")
    (splitCommaStr u).zip (splitCommaStr sitesStr)

/-- The replica-catalog pass of `write` (lines 87-102): one descriptor per
file node, keyed by `lfn`.  A missing `lfn` raises `KeyError`.  Modelled from
the spec: the external document builder rejects a second file with an
already-registered logical name (`DuplicateLogicalNameError`). -/
def buildCatalog (g : Graph) : List Nat → List DFile → Except DaxErr (List DFile)
  | [], acc => .ok acc
  | f :: fs, acc =>
    match (g.attr f).lfn with
    | none => .error .keyError
    | some l =>
      if l ∈ acc.map DFile.name then .error .duplicateError
      else buildCatalog g fs (acc ++ [{ name := l, pfns := pfnsOf (g.attr f) }])

/-- Argument substitution of `write` (lines 111-119) after the index list is
fixed: each (first-occurrence index, logical name) pair overwrites the token
at that index with the file reference, in sequence. -/
def applySubsts : List (Nat × String) → List Arg → List Arg
  | [], acc => acc
  | (i, l) :: ps, acc => applySubsts ps (acc.set i (Arg.file l))

/-- Argument substitution of `write` (lines 111-119): intersect the token set
with the catalog key set (`set(catalog) & set(args)`), compute
`args.index(lfn)` — the index of the *first* occurrence — for each member,
and overwrite those positions with the file references.  The Python set
iteration order is arbitrary; the result is order-independent because
distinct names have distinct first-occurrence indices, so the intersection is
enumerated here in first-occurrence order of the token list. -/
def substArgs (catalogNames : List String) (toks : List String) : List Arg :=
  let lfns := toks.dedup.filter (fun t => t ∈ catalogNames)
  applySubsts (lfns.map (fun l => (toks.indexOf l, l))) (toks.map Arg.lit)

/-- The parent-derivation of `write` (lines 144-151): the parents of a task
are the predecessors of its predecessors, with set semantics. -/
def parentsOf (g : Graph) (t : Nat) : List Nat :=
  ((preds g t).flatMap (preds g)).dedup

/-- Catalog lookup of the logical name of a graph node (write lines 122-133):
`KeyError` when the node has no `lfn` or its `lfn` is not a catalog key. -/
def resolveLfn (g : Graph) (catalogNames : List String) (f : Nat) :
    Except DaxErr String :=
  match (g.attr f).lfn with
  | none => .error .keyError
  | some l => if l ∈ catalogNames then .ok l else .error .keyError

/-- The stream-redirection target recorded for a task (write lines 135-140):
the loop calls `setStdout`/`setStderr` once per flagged output file, so the
*last* output whose `streams` has the bit `code` set wins. -/
def lastStreamRef (g : Graph) (t : Nat) (code : Nat) : Option String :=
  (succs g t).foldl
    (fun acc f =>
      if ((g.attr f).streams.getD 0) &&& code != 0 then (g.attr f).lfn else acc)
    none

/-- The compiled argument vector of a task (write lines 109-119): absent or
empty `args` contribute no tokens, otherwise the whitespace-split tokens with
catalog matches substituted. -/
def argsField (catalogNames : List String) (a : Attrs) : List Arg :=
  match a.args with
  | none => []
  | some s => if s = "" then [] else substArgs catalogNames (splitWsStr s)

/-- The job-building pass of `write` (lines 104-142) for one task node. -/
def buildJob (g : Graph) (catalogNames : List String) (t : Nat) :
    Except DaxErr DJob := do
  match (g.attr t).name with
  | none => .error .keyError
  | some nm => do
    let ins ← (preds g t).mapM (resolveLfn g catalogNames)
    let outs ← (succs g t).mapM (resolveLfn g catalogNames)
    .ok { name := nm, id := t, args := argsField catalogNames (g.attr t),
          usesIn := ins, usesOut := outs,
          stdout := lastStreamRef g t 1, stderr := lastStreamRef g t 2 }

/-- `Daxgen.write` up to the XML emission: build the replica catalog, the job
entries, and the dependency pairs.  `getJob` on an id that was never added as
a job is the builder's not-found failure (modelled from the spec). -/
def writeDax (g : Graph) (files tasks : List Nat) (nm : String) :
    Except DaxErr Document := do
  let catalog ← buildCatalog g files []
  let jobs ← tasks.mapM (buildJob g (catalog.map DFile.name))
  if tasks.all (fun t => (parentsOf g t).all (fun p => p ∈ tasks)) then
    .ok { name := nm, files := catalog, jobs := jobs,
          deps := tasks.flatMap (fun t => (parentsOf g t).map (fun p => (p, t))) }
  else .error .notFoundError

/-! ## `Daxgen.__init__` and the `files`/`tasks` sets -/

/-- The mutable state of a `Daxgen` object: the graph plus the `files` and
`tasks` attributes, which are `none` when the corresponding Python attribute
was never assigned (empty graph). -/
structure DaxgenState where
  graph : Graph
  files : Option (List Nat)
  tasks : Option (List Nat)
deriving DecidableEq

/-- `Daxgen.__init__` (lines 17-24): on a non-empty graph run `_label` and
materialise the `files` (tag 1) and `tasks` (tag 0) sets; on an empty graph
leave both attributes unassigned. -/
def initDaxgen (g : Graph) : Except DaxErr DaxgenState :=
  if g.nodes.isEmpty then
    .ok { graph := g, files := none, tasks := none }
  else do
    let tags ← label g
    .ok { graph := g,
          files := some (g.ids.filter (fun v => tags.lookup v == some 1)),
          tasks := some (g.ids.filter (fun v => tags.lookup v == some 0)) }

/-- `Daxgen.write` as a method: reading `self.files`/`self.tasks` when they
were never assigned raises `AttributeError`. -/
def writeMethod (st : DaxgenState) (nm : String) : Except DaxErr Document :=
  match st.files, st.tasks with
  | some fs, some ts => writeDax st.graph fs ts nm
  | _, _ => .error .attributeError

/-! ## `Daxgen._find_root` -/

/-- The `for lfn in lfns: if '_mapper' in lfn: break` scan (lines 232-234):
the first name containing the marker if any, otherwise the *last* name (the
loop variable keeps its final value when the loop falls through); `none` when
the list is empty (the loop variable is unbound). -/
def markerScan : List String → Option String
  | [] => none
  | [l] => some l
  | l :: ls =>
    if ("_mapper".data).IsInfix l.data then some l else markerScan ls

/-- `Daxgen._find_root` (lines 228-235): scan the logical file names for the
`'_mapper'` marker and return `os.path.dirname` of the scan result; on an
empty file set the unbound loop variable raises `NameError`. -/
def findRoot (g : Graph) (files : List Nat) : Except DaxErr String :=
  let lfns := files.map (fun f => ((g.attr f).lfn).getD "")
  match markerScan lfns with
  | none => .error .nameError
  | some l => .ok ⟨dirnameChars l.data⟩

/-! ## The reverse parser (`daxgen/utils/dax2graphml.py`) -/

/-- Modelled from the spec: the argument representation as it crosses the
wire.  The XML writer interleaves the literal tokens with `<file>` elements
and `xmltodict` collapses the text into one blob, so the structured form
keeps the literal text (space separated) next to the referenced logical
names, in declaration order; when every token is literal the representation
is the plain text. -/
inductive ArgRepr where
  | plain : String → ArgRepr
  | mixed : String → List String → ArgRepr
deriving DecidableEq

/-- Modelled from the spec: the wire form of a compiled argument vector
(see `ArgRepr`). -/
def argReprOf (args : List Arg) : ArgRepr :=
  let lits := args.filterMap (fun a => match a with | .lit s => some s | .file _ => none)
  let fils := args.filterMap (fun a => match a with | .file l => some l | .lit _ => none)
  if fils = [] then .plain (joinSpStr lits) else .mixed (joinSpStr lits) fils

/-- `stringify` (dax2graphml lines 97-127): plain text is whitespace
normalised; a structured blob is tokenised, `text.index('-C')` locates the
single file-consuming option (`ValueError` when absent), and the first file
reference is re-inserted right after it (`IndexError` when the reference
list is empty; further references are dropped because the option set has one
element). -/
def stringify : ArgRepr → Except DaxErr String
  | .plain s => .ok (joinSpStr (splitWsStr s))
  | .mixed text fils =>
    let toks := splitWsStr text
    match toks.findIdx? (fun t => t == "-C") with
    | none => .error .valueError
    | some pos =>
      match fils with
      | [] => .error .indexError
      | f0 :: _ => .ok (joinSpStr (toks.insertIdx (pos + 1) f0))

/-- Attributes of a reconstructed file node (parse_dax lines 44-54): `lfn`
always, and the comma-joined `urls`/`sites` when the entry has locations. -/
def fileAttrsOf (df : DFile) : Attrs :=
  if df.pfns = [] then { lfn := some df.name }
  else
    { lfn := some df.name,
      urls := some (joinCommaStr (df.pfns.map Prod.fst)),
      sites := some (joinCommaStr (df.pfns.map Prod.snd)) }

/-- The `mapping` dictionary of `parse_dax` (line 57): logical name to node
id; a duplicated name keeps the last node, as in the dict comprehension. -/
def mappingOf (files : List DFile) (l : String) : Option Nat :=
  files.enum.foldl (fun acc p => if p.2.name = l then some p.1 else acc) none

/-- Intermediate state of `parse_dax`: reconstructed file nodes (whose
`streams` accumulate), reconstructed task nodes, and the edge list. -/
structure PState where
  fileNodes : List (Nat × Attrs)
  taskNodes : List (Nat × Attrs)
  edges : List (Nat × Nat)
deriving DecidableEq

/-- The in-place update `attrs['streams'] |= code` (falling back to
`attrs['streams'] = code` when the key is absent) applied to the node `u` of
a node list. -/
def applyUpdate (u code : Nat) (ns : List (Nat × Attrs)) : List (Nat × Attrs) :=
  ns.map (fun p =>
    if p.1 = u then (p.1, { p.2 with streams := some ((p.2.streams.getD 0) ||| code) })
    else p)

/-- Stream handling of `parse_dax` (lines 81-92) for one declared
redirection: OR the code into the target file's `streams` attribute and add
the task-to-file edge. -/
def applyStream (files : List DFile) (v : Nat) (ref : Option String)
    (code : Nat) (st : PState) : Except DaxErr PState :=
  match ref with
  | none => .ok st
  | some l =>
    match mappingOf files l with
    | none => .error .keyError
    | some u =>
      .ok { st with
            fileNodes := applyUpdate u code st.fileNodes,
            edges := st.edges ++ [(v, u)] }

/-- The reconstructed `args` attribute of a job (parse_dax lines 65-67): no
attribute when the job declared no arguments, otherwise the `stringify`-ed
wire representation. -/
def argsAttrOf (args : List Arg) : Except DaxErr (Option String) :=
  match args with
  | [] => pure none
  | as => do
      let s ← stringify (argReprOf as)
      pure (some s)

/-- One iteration of the job loop of `parse_dax` (lines 60-92): build the
task attributes (arguments through `stringify`), add the node, the edges
derived from the input/output usages, and the stream redirections. -/
def processJob (files : List DFile) (v : Nat) (job : DJob) (st : PState) :
    Except DaxErr PState := do
  let argsAttr ← argsAttrOf job.args
  let ins ← job.usesIn.mapM (fun l => match mappingOf files l with
    | none => Except.error DaxErr.keyError
    | some u => Except.ok u)
  let outs ← job.usesOut.mapM (fun l => match mappingOf files l with
    | none => Except.error DaxErr.keyError
    | some u => Except.ok u)
  let st2 ← applyStream files v job.stdout 1
    { st with
      taskNodes := st.taskNodes ++ [(v, { name := some job.name, args := argsAttr })],
      edges := st.edges ++ ins.map (fun u => (u, v)) ++ outs.map (fun u => (v, u)) }
  applyStream files v job.stderr 2 st2

/-- The job loop of `parse_dax`, with fresh consecutive node ids continuing
after the file nodes. -/
def processJobs (files : List DFile) : List (Nat × DJob) → PState →
    Except DaxErr PState
  | [], st => .ok st
  | (j, job) :: rest, st => do
    let st1 ← processJob files (files.length + j) job st
    processJobs files rest st1

/-- `parse_dax` (dax2graphml lines 23-94): reconstruct the graph from the
wire document — file nodes first (ids `0, 1, ...` from the fresh counter),
then one task node per job with its usage edges and stream flags.  The
dependency section of the document is not read.  The edge list is
deduplicated because `networkx` stores an edge set. -/
def parseDax (d : Document) : Except DaxErr Graph := do
  let st ← processJobs d.files d.jobs.enum
    { fileNodes := d.files.enum.map (fun p => (p.1, fileAttrsOf p.2)),
      taskNodes := [], edges := [] }
  .ok { nodes := st.fileNodes ++ st.taskNodes, edges := st.edges.dedup }

/-! ## The loader dispatch (`Daxgen.read`, lines 50-61) -/

/-- The reader functions the extension table dispatches to:
`read_json`, `networkx.read_gexf`, `networkx.read_graphml`. -/
inductive Reader where
  | readJson
  | readGexf
  | readGraphml
deriving DecidableEq

/-- The extension table of `Daxgen.read` (lines 50-56). -/
def methods : List (String × Reader) :=
  [("json", .readJson), ("gexf", .readGexf), ("gxf", .readGexf),
   ("gml", .readGraphml), ("graphml", .readGraphml)]

/-- `filename.split('.')[-1]`. -/
def extOf (filename : String) : String :=
  ⟨(splitOnChar '.' filename.data).getLastD []⟩

/-- The lowercased extension used for the table lookup (`ext.lower()`). -/
def lowerExt (filename : String) : String := ⟨lowerChars (extOf filename).data⟩

/-- The dispatch of `Daxgen.read` (lines 57-61): look the lowercased
extension up in the table; on a miss raise
`ValueError("Format <ext> is not supported yet.")` naming the (original
case) extension — the quote characters of the message are left out here. -/
def readMethod (filename : String) : Except String Reader :=
  match methods.lookup (lowerExt filename) with
  | some r => .ok r
  | none => .error ("Format " ++ extOf filename ++ " is not supported yet.")

/-! ## Round-trip equivalence -/

/-- The argument tokens encoded by a node's `args` attribute. -/
def tokensOf (a : Attrs) : List String := splitWsStr (a.args.getD "")

/-- The stream-flag bitset encoded by a node's `streams` attribute. -/
def streamsOf (a : Attrs) : Nat := a.streams.getD 0

/-- Equivalence of node attributes at the level the round-trip claim states:
same logical name, executable name, argument tokens, physical locations (as
(url, site) pairs, with the default-site convention applied), and stream
flags. -/
def attrEquiv (a b : Attrs) : Prop :=
  a.lfn = b.lfn ∧ a.name = b.name ∧ tokensOf a = tokensOf b ∧
  pfnsOf a = pfnsOf b ∧ streamsOf a = streamsOf b

/-- Graph isomorphism on node attributes and the edge set: `φ` maps the node
ids of `g` bijectively onto those of `h` (as a permutation of lists),
preserving attribute equivalence and edge membership both ways. -/
def GraphIso (g h : Graph) (φ : Nat → Nat) : Prop :=
  (g.ids.map φ).Perm h.ids ∧
  (∀ v ∈ g.ids, attrEquiv (g.attr v) (h.attr (φ v))) ∧
  (∀ u ∈ g.ids, ∀ v ∈ g.ids, ((u, v) ∈ g.edges ↔ (φ u, φ v) ∈ h.edges))

/-- The node-id map realising the round-trip isomorphism: the `i`-th file of
the file list maps to fresh id `i`, the `j`-th task to fresh id
`|files| + j`. -/
def isoMap (fs ts : List Nat) (v : Nat) : Nat :=
  if v ∈ fs then fs.indexOf v else fs.length + ts.indexOf v

/-- The set of filename extensions the loader actually recognizes
(table keys of `methods`). -/
def recognizedExts : List String := ["json", "gexf", "gxf", "gml", "graphml"]

/-- The logical file name of a node with the `lfn` attribute present. -/
def lfnD (g : Graph) (f : Nat) : String := ((g.attr f).lfn).getD ""

/-- The executable name of a node with the `name` attribute present. -/
def nameD (g : Graph) (t : Nat) : String := ((g.attr t).name).getD ""

/-- The file catalog `write` builds for the file list (success case). -/
def catalogOf (g : Graph) (fs : List Nat) : List DFile :=
  fs.map (fun f => { name := lfnD g f, pfns := pfnsOf (g.attr f) })

/-- The job entry `write` builds for a task whose argument tokens are all
literal (success case). -/
def jobOf (g : Graph) (t : Nat) : DJob :=
  { name := nameD g t,
    id := t,
    args := (tokensOf (g.attr t)).map Arg.lit,
    usesIn := (preds g t).map (lfnD g),
    usesOut := (succs g t).map (lfnD g),
    stdout := lastStreamRef g t 1,
    stderr := lastStreamRef g t 2 }

/-- The document `write` produces in the success case. -/
def docOf (g : Graph) (fs ts : List Nat) (nm : String) : Document :=
  { name := nm,
    files := catalogOf g fs,
    jobs := ts.map (jobOf g),
    deps := ts.flatMap (fun t => (parentsOf g t).map (fun p => (p, t))) }

/-- Attributes of a task node reconstructed by `parse_dax` from a plain-text
argument representation. -/
def taskAttrsOf (g : Graph) (t : Nat) : Attrs :=
  { name := some (nameD g t),
    args := if tokensOf (g.attr t) = [] then none
            else some (joinSpStr (tokensOf (g.attr t))) }

/-- A sequence of stream updates (target node id, stream code) applied in
order. -/
def applyUpdates : List (Nat × Nat) → List (Nat × Attrs) → List (Nat × Attrs)
  | [], ns => ns
  | (u, c) :: us, ns => applyUpdates us (applyUpdate u c ns)

/-- Repeated stream-code accumulation on one attribute dictionary. -/
def applyCodes : Attrs → List Nat → Attrs
  | a, [] => a
  | a, c :: cs => applyCodes { a with streams := some ((a.streams.getD 0) ||| c) } cs

/-- The stream updates contributed by the job of task `t` during the reverse
parse: the stdout reference (code 1) and the stderr reference (code 2),
resolved through the logical-name mapping. -/
def jobUpdates (g : Graph) (fs : List Nat) (t : Nat) : List (Nat × Nat) :=
  (match lastStreamRef g t 1 with
   | none => []
   | some l => match mappingOf (catalogOf g fs) l with
     | none => []
     | some u => [(u, 1)]) ++
  (match lastStreamRef g t 2 with
   | none => []
   | some l => match mappingOf (catalogOf g fs) l with
     | none => []
     | some u => [(u, 2)])

/-- All stream updates of the reverse parse, in job order. -/
def allUpdates (g : Graph) (fs : List Nat) : List Nat → List (Nat × Nat)
  | [] => []
  | t :: ts => jobUpdates g fs t ++ allUpdates g fs ts

/-- The edges the reverse parse adds for the job of task `t` (fresh id `v`):
input usages, output usages, then one edge per declared stream target. -/
def jobEdges (g : Graph) (fs : List Nat) (v : Nat) (t : Nat) : List (Nat × Nat) :=
  (preds g t).map (fun f => (fs.indexOf f, v)) ++
  (succs g t).map (fun f => (v, fs.indexOf f)) ++
  (jobUpdates g fs t).map (fun q => (v, q.1))

/-- All edges the reverse parse adds, jobs in order with fresh ids starting
at `n`. -/
def allEdges (g : Graph) (fs : List Nat) : Nat → List Nat → List (Nat × Nat)
  | _, [] => []
  | n, t :: ts => jobEdges g fs n t ++ allEdges g fs (n + 1) ts

/-- The task nodes the reverse parse adds, jobs in order with fresh ids
starting at `n`. -/
def allTaskNodes (g : Graph) : Nat → List Nat → List (Nat × Attrs)
  | _, [] => []
  | n, t :: ts => (n, taskAttrsOf g t) :: allTaskNodes g (n + 1) ts

/-- The graph the reverse parse reconstructs from `docOf` under the
round-trip hypotheses. -/
def roundTripGraph (g : Graph) (fs ts : List Nat) : Graph :=
  { nodes :=
      applyUpdates (allUpdates g fs ts)
        ((catalogOf g fs).enum.map (fun p => (p.1, fileAttrsOf p.2))) ++
      allTaskNodes g fs.length ts,
    edges := (allEdges g fs fs.length ts).dedup }

/-- File-node attribute schema supported by the serializer (plus the
round-trip constraint that the stream bitset only uses bits 0 and 1). -/
def FileSchema (a : Attrs) : Prop :=
  a.lfn.isSome ∧ a.name = none ∧ a.args = none ∧ streamsOf a < 4

/-- Task-node attribute schema supported by the serializer. -/
def TaskSchema (a : Attrs) : Prop :=
  a.name.isSome ∧ a.lfn = none ∧ a.urls = none ∧ a.sites = none ∧
  a.streams = none

/-- The file-role nodes of a graph: those carrying the `lfn` attribute (the
attribute `_label` inspects to tell files from tasks). -/
def filesOf (g : Graph) : List Nat :=
  g.ids.filter (fun v => (g.attr v).lfn.isSome)

/-- The task-role nodes of a graph: those without the `lfn` attribute. -/
def tasksOf (g : Graph) : List Nat :=
  g.ids.filter (fun v => !(g.attr v).lfn.isSome)

/-- The full pipeline of the round-trip claim: construct the generator
(`__init__` runs `_label` and materialises the `files`/`tasks` sets from the
role tags), emit the wire document with `write`, and reverse-parse it with
`parse_dax`. -/
def daxgenRoundTrip (g : Graph) (nm : String) : Except DaxErr Graph :=
  (initDaxgen g).bind (fun st => (writeMethod st nm).bind parseDax)

/-! ## Concrete graphs used by witnesses and counterexamples -/

/-- The concrete scenario of the spec (section 8): `input` -> task ->
`output`. -/
def gScenario : Graph :=
  { nodes := [(0, { lfn := some "input" }),
              (1, { name := some "task", args := some "--opt val arg" }),
              (2, { lfn := some "output" })],
    edges := [(0, 1), (1, 2)] }

/-- The spec scenario with an argument token equal to a logical file name. -/
def gEmbedded : Graph :=
  { nodes := [(0, { lfn := some "input.dat" }),
              (1, { name := some "task", args := some "--opt val input.dat" }),
              (2, { lfn := some "out" })],
    edges := [(0, 1), (1, 2)] }

/-- A triangle (odd cycle): not two-colorable. -/
def gTriangle : Graph :=
  { nodes := [(0, { lfn := some "a" }), (1, { name := some "t" }),
              (2, { lfn := some "b" })],
    edges := [(0, 1), (1, 2), (0, 2)] }

/-- Two disconnected file-task components; `[0, 2]`, `[1, 3]` is a valid
two-coloring whose classes mix files and tasks. -/
def gMixed : Graph :=
  { nodes := [(0, { lfn := some "a" }), (1, { name := some "t" }),
              (2, { name := some "u" }), (3, { lfn := some "b" })],
    edges := [(0, 1), (2, 3)] }

/-- Two file nodes whose logical names lack the `_mapper` marker. -/
def gNoMarker : Graph :=
  { nodes := [(0, { lfn := some "a/x.dat" }), (1, { lfn := some "b/y.dat" }),
              (2, { name := some "t" })],
    edges := [(0, 2), (1, 2)] }

/-- Two distinct file nodes sharing the logical name `x`. -/
def gDupLfn : Graph :=
  { nodes := [(0, { lfn := some "x" }), (1, { name := some "t" }),
              (2, { lfn := some "x" })],
    edges := [(0, 1), (1, 2)] }

/-- The empty workflow graph. -/
def gEmpty : Graph := { nodes := [], edges := [] }

instance (g : Graph) (U V : List Nat) : Decidable (ValidBipartition g U V) := by
  unfold ValidBipartition; infer_instance

instance (g : Graph) : Decidable (WellFormed g) := by
  unfold WellFormed; infer_instance

instance (a b : Attrs) : Decidable (attrEquiv a b) := by
  unfold attrEquiv; infer_instance

instance (a : Attrs) : Decidable (FileSchema a) := by
  unfold FileSchema; infer_instance

instance (a : Attrs) : Decidable (TaskSchema a) := by
  unfold TaskSchema; infer_instance

/-! ## Basic lemmas about the graph accessors -/

lemma mem_preds {g : Graph} {p v : Nat} : p ∈ preds g v ↔ (p, v) ∈ g.edges := by
  unfold preds
  simp only [List.mem_map, List.mem_filter, beq_iff_eq]
  constructor
  · rintro ⟨e, ⟨he, h2⟩, h1⟩
    obtain ⟨a, b⟩ := e
    simp only at h1 h2
    subst h1; subst h2; exact he
  · intro h
    exact ⟨(p, v), ⟨h, rfl⟩, rfl⟩

lemma mem_succs {g : Graph} {s v : Nat} : s ∈ succs g v ↔ (v, s) ∈ g.edges := by
  unfold succs
  simp only [List.mem_map, List.mem_filter, beq_iff_eq]
  constructor
  · rintro ⟨e, ⟨he, h1⟩, h2⟩
    obtain ⟨a, b⟩ := e
    simp only at h1 h2
    subst h1; subst h2; exact he
  · intro h
    exact ⟨(v, s), ⟨h, rfl⟩, rfl⟩

/-! ## Lemmas about argument substitution -/

lemma applySubsts_length (ps : List (Nat × String)) :
    ∀ acc, (applySubsts ps acc).length = acc.length := by
  induction ps with
  | nil => intro acc; rfl
  | cons p ps ih =>
    intro acc
    obtain ⟨i, l⟩ := p
    simp [applySubsts, ih]

lemma applySubsts_getElem (ps : List (Nat × String)) :
    ∀ (acc : List Arg) (j : Nat) (hj : j < acc.length)
      (hj2 : j < (applySubsts ps acc).length),
      (ps.map Prod.fst).Nodup → (∀ p ∈ ps, p.1 < acc.length) →
      (applySubsts ps acc)[j] =
        match ps.find? (fun p => p.1 == j) with
        | some p => Arg.file p.2
        | none => acc[j] := by
  induction ps with
  | nil => intro acc j hj hj2 _ _; rfl
  | cons p ps ih =>
    intro acc j hj hj2 hnd hlt
    obtain ⟨i, l⟩ := p
    simp only [List.map_cons, List.nodup_cons] at hnd
    have hlen : j < (acc.set i (Arg.file l)).length := by simpa using hj
    have hstep := ih (acc.set i (Arg.file l)) j hlen
      (by rw [applySubsts_length]; exact hlen) hnd.2
      (fun q hq => by simpa using hlt q (List.mem_cons_of_mem _ hq))
    by_cases hij : i = j
    · subst hij
      have hfind : ps.find? (fun p => p.1 == i) = none := by
        apply List.find?_eq_none.mpr
        intro q hq
        simp only [beq_iff_eq]
        intro hqi
        exact hnd.1 (hqi ▸ List.mem_map_of_mem Prod.fst hq)
      simp only [applySubsts, List.find?_cons, beq_self_eq_true]
      rw [hstep, hfind]
      simp only []
      exact List.getElem_set_self (by simpa using hj)
    · have hfc : List.find? (fun p => p.1 == j) ((i, l) :: ps) =
          List.find? (fun p => p.1 == j) ps := by
        simp [List.find?_cons, hij]
      simp only [applySubsts]
      rw [hstep, hfc]
      cases List.find? (fun p => p.1 == j) ps with
      | none => simp [List.getElem_set_ne hij]
      | some q => rfl

lemma substArgs_length (cat toks : List String) :
    (substArgs cat toks).length = toks.length := by
  unfold substArgs
  rw [applySubsts_length, List.length_map]

/-- Pointwise description of the compiled argument vector: a token becomes a
file reference exactly when it is a catalog key *and* stands at the first
occurrence of its text; every other token stays literal. -/
lemma substArgs_getElem (cat toks : List String) (j : Nat) (hj : j < toks.length)
    (hj2 : j < (substArgs cat toks).length) :
    (substArgs cat toks)[j] =
      if toks[j] ∈ cat ∧ toks.indexOf toks[j] = j then Arg.file toks[j]
      else Arg.lit toks[j] := by
  have hmem : ∀ l ∈ (toks.dedup.filter (fun t => decide (t ∈ cat))), l ∈ toks ∧ l ∈ cat := by
    intro l hl
    rw [List.mem_filter] at hl
    exact ⟨List.mem_dedup.mp hl.1, by simpa using hl.2⟩
  have hnodup : ((toks.dedup.filter (fun t => decide (t ∈ cat))).map
      (fun l => (toks.indexOf l, l)) |>.map Prod.fst).Nodup := by
    rw [List.map_map]
    apply List.Nodup.map_on
    · intro x hx y hy hxy
      have hx2 : toks.indexOf x < toks.length :=
        List.indexOf_lt_length.mpr (hmem x hx).1
      have hy2 : toks.indexOf y < toks.length :=
        List.indexOf_lt_length.mpr (hmem y hy).1
      have : toks.indexOf x = toks.indexOf y := hxy
      calc x = toks[toks.indexOf x] := by rw [List.getElem_indexOf]
        _ = toks[toks.indexOf y] := by congr 1
        _ = y := by rw [List.getElem_indexOf]
    · exact (List.nodup_dedup toks).filter _
  have hlt : ∀ p ∈ (toks.dedup.filter (fun t => decide (t ∈ cat))).map
      (fun l => (toks.indexOf l, l)), p.1 < (toks.map Arg.lit).length := by
    intro p hp
    rw [List.mem_map] at hp
    obtain ⟨l, hl, rfl⟩ := hp
    simpa using List.indexOf_lt_length.mpr (hmem l hl).1
  unfold substArgs
  unfold substArgs at hj2
  rw [applySubsts_getElem _ _ _ (by simpa using hj) hj2 hnodup hlt]
  by_cases hcond : toks[j] ∈ cat ∧ toks.indexOf toks[j] = j
  · have hfind : ((toks.dedup.filter (fun t => decide (t ∈ cat))).map
        (fun l => (toks.indexOf l, l))).find? (fun p => p.1 == j) =
        some (j, toks[j]) := by
      have hj' : toks[j] ∈ toks.dedup.filter (fun t => decide (t ∈ cat)) := by
        rw [List.mem_filter]
        exact ⟨List.mem_dedup.mpr (List.getElem_mem hj), by simpa using hcond.1⟩
      rcases hfq : ((toks.dedup.filter (fun t => decide (t ∈ cat))).map
          (fun l => (toks.indexOf l, l))).find? (fun p => p.1 == j) with _ | q
      · exfalso
        have := List.find?_eq_none.mp hfq (toks.indexOf toks[j], toks[j])
          (List.mem_map_of_mem _ hj')
        simp [hcond.2] at this
      · have hq1 := List.find?_some hfq
        have hq2 := List.mem_of_find?_eq_some hfq
        rw [List.mem_map] at hq2
        obtain ⟨l, hl, rfl⟩ := hq2
        simp only [beq_iff_eq] at hq1
        have hlj : l = toks[j] := by
          have hlm2 : toks.indexOf l < toks.length :=
            List.indexOf_lt_length.mpr (hmem l hl).1
          calc l = toks[toks.indexOf l] := by rw [List.getElem_indexOf]
            _ = toks[j] := by congr 1
        subst hlj
        rw [hfq, hq1]
    rw [hfind]
    simp [hcond.1, hcond.2]
  · have hfind : ((toks.dedup.filter (fun t => decide (t ∈ cat))).map
        (fun l => (toks.indexOf l, l))).find? (fun p => p.1 == j) = none := by
      apply List.find?_eq_none.mpr
      intro q hq
      rw [List.mem_map] at hq
      obtain ⟨l, hl, rfl⟩ := hq
      simp only [beq_iff_eq]
      intro hidx
      apply hcond
      have hlm2 : toks.indexOf l < toks.length :=
        List.indexOf_lt_length.mpr (hmem l hl).1
      have hlj : l = toks[j] := by
        calc l = toks[toks.indexOf l] := by rw [List.getElem_indexOf]
          _ = toks[j] := by congr 1
      subst hlj
      exact ⟨(hmem _ hl).2, hidx⟩
    rw [hfind]
    simp [hcond]

/-- When no token is a catalog key the whole vector stays literal. -/
lemma substArgs_no_match (cat toks : List String)
    (h : ∀ tok ∈ toks, tok ∉ cat) :
    substArgs cat toks = toks.map Arg.lit := by
  unfold substArgs
  have : toks.dedup.filter (fun t => decide (t ∈ cat)) = [] := by
    apply List.filter_eq_nil_iff.mpr
    intro t ht
    simpa using h t (List.mem_dedup.mp ht)
  rw [this]
  rfl

/-! ## Lemmas about the two-coloring enumeration -/

lemma mem_colorings_lookup :
    ∀ (ids : List Nat) (m : List (Nat × Bool)), m ∈ colorings ids →
      ∀ v ∈ ids, ∃ b, m.lookup v = some b := by
  intro ids
  induction ids with
  | nil => intro m _ v hv; cases hv
  | cons i is ih =>
    intro m hm v hv
    simp only [colorings, List.mem_flatMap] at hm
    obtain ⟨m', hm', hmem⟩ := hm
    simp only [List.mem_cons, List.not_mem_nil, or_false] at hmem
    rcases List.mem_cons.mp hv with hvi | hvs
    · subst hvi
      rcases hmem with rfl | rfl <;> simp [List.lookup]
    · rcases hmem with rfl | rfl <;>
      · simp only [List.lookup]
        by_cases hvi : v == i
        · exact ⟨_, by rw [hvi]⟩
        · rw [Bool.of_not_eq_true hvi]
          exact ih m' hm' v hvs

lemma map_mem_colorings (c : Nat → Bool) :
    ∀ ids : List Nat, ids.map (fun i => (i, c i)) ∈ colorings ids := by
  intro ids
  induction ids with
  | nil => simp [colorings]
  | cons i is ih =>
    simp only [colorings, List.mem_flatMap, List.map_cons]
    refine ⟨is.map (fun i => (i, c i)), ih, ?_⟩
    cases hc : c i <;> simp [hc]

/-- Soundness of the enumeration-based coloring: a found proper assignment
yields a proper coloring function. -/
lemma properColoring_of_find (g : Graph) (m : List (Nat × Bool))
    (hfind : (colorings g.ids).find? (properOn g) = some m)
    (hwf : WellFormed g) :
    IsProperColoring g (fun v => (m.lookup v).getD true) := by
  have hm : m ∈ colorings g.ids := List.mem_of_find?_eq_some hfind
  have hp : properOn g m = true := List.find?_some hfind
  intro e he
  dsimp only
  obtain ⟨h1, h2⟩ := hwf e he
  obtain ⟨b1, hb1⟩ := mem_colorings_lookup g.ids m hm e.1 h1
  obtain ⟨b2, hb2⟩ := mem_colorings_lookup g.ids m hm e.2 h2
  have hne := List.all_eq_true.mp hp e he
  rw [bne_iff_ne, hb1, hb2] at hne
  rw [hb1, hb2]
  simp only [Option.getD_some]
  intro hbb
  exact hne (by rw [hbb])

/-! ## Lemmas about whitespace splitting and joining -/

lemma wordsAux_sound :
    ∀ (l cur : List Char), (∀ c ∈ cur, c.isWhitespace = false) →
      ∀ w ∈ wordsAux l cur, w ≠ [] ∧ ∀ c ∈ w, c.isWhitespace = false := by
  intro l
  induction l with
  | nil =>
    intro cur hcur w hw
    unfold wordsAux at hw
    by_cases hc : cur = []
    · simp [hc] at hw
    · rw [if_neg hc] at hw
      simp only [List.mem_singleton] at hw
      subst hw
      refine ⟨by simpa using hc, ?_⟩
      intro c hcw
      exact hcur c (List.mem_reverse.mp hcw)
  | cons c cs ih =>
    intro cur hcur w hw
    unfold wordsAux at hw
    by_cases hws : c.isWhitespace
    · rw [if_pos hws] at hw
      by_cases hc : cur = []
      · rw [if_pos hc] at hw
        exact ih [] (by intro x hx; cases hx) w hw
      · rw [if_neg hc] at hw
        rcases List.mem_cons.mp hw with rfl | hw'
        · refine ⟨by simpa using hc, ?_⟩
          intro x hxw
          exact hcur x (List.mem_reverse.mp hxw)
        · exact ih [] (by intro x hx; cases hx) w hw'
    · rw [if_neg hws] at hw
      refine ih (c :: cur) ?_ w hw
      intro x hx
      rcases List.mem_cons.mp hx with rfl | hx'
      · exact Bool.of_not_eq_true hws
      · exact hcur x hx'

lemma words_sound (l : List Char) :
    ∀ w ∈ words l, w ≠ [] ∧ ∀ c ∈ w, c.isWhitespace = false :=
  wordsAux_sound l [] (by intro c hc; cases hc)

lemma wordsAux_nil_eq (cur : List Char) :
    wordsAux [] cur = if cur = [] then [] else [cur.reverse] := rfl

lemma wordsAux_cons_eq (c : Char) (cs cur : List Char) :
    wordsAux (c :: cs) cur =
      if c.isWhitespace then
        (if cur = [] then wordsAux cs [] else cur.reverse :: wordsAux cs [])
      else wordsAux cs (c :: cur) := rfl

lemma wordsAux_append (w : List Char) (hw : ∀ c ∈ w, c.isWhitespace = false) :
    ∀ (t cur : List Char), wordsAux (w ++ t) cur = wordsAux t (w.reverse ++ cur) := by
  induction w with
  | nil => intro t cur; simp
  | cons c w' ih =>
    intro t cur
    have hc : c.isWhitespace = false := hw c (List.mem_cons_self c w')
    rw [List.cons_append, wordsAux_cons_eq, if_neg (by simp [hc])]
    rw [ih (fun x hx => hw x (List.mem_cons_of_mem _ hx)) t (c :: cur)]
    congr 1
    simp

lemma words_join :
    ∀ ws : List (List Char),
      (∀ w ∈ ws, w ≠ [] ∧ ∀ c ∈ w, c.isWhitespace = false) →
      words (joinSp ws) = ws := by
  intro ws
  induction ws with
  | nil => intro; rfl
  | cons w ws ih =>
    intro h
    obtain ⟨hw1, hw2⟩ := h w (List.mem_cons_self w ws)
    cases ws with
    | nil =>
      show words (joinSp [w]) = [w]
      have hj : joinSp [w] = w := rfl
      rw [hj]
      show wordsAux w [] = [w]
      have happ := wordsAux_append w hw2 [] []
      rw [List.append_nil] at happ
      rw [happ, wordsAux_nil_eq, if_neg (by simpa using hw1)]
      simp
    | cons w2 ws' =>
      have hj : joinSp (w :: w2 :: ws') = w ++ ' ' :: joinSp (w2 :: ws') := rfl
      show wordsAux (joinSp (w :: w2 :: ws')) [] = _
      rw [hj, wordsAux_append w hw2]
      simp only [List.append_nil]
      rw [wordsAux_cons_eq, if_pos (by decide), if_neg (by simpa using hw1)]
      simp only [List.reverse_reverse]
      have hih := ih (fun x hx => h x (List.mem_cons_of_mem _ hx))
      show w :: wordsAux (joinSp (w2 :: ws')) [] = _
      rw [show wordsAux (joinSp (w2 :: ws')) [] = words (joinSp (w2 :: ws')) from rfl]
      rw [hih]

lemma splitWsStr_sound (s : String) :
    ∀ w ∈ splitWsStr s, w ≠ "" ∧ ∀ c ∈ w.data, c.isWhitespace = false := by
  intro w hw
  unfold splitWsStr at hw
  rw [List.mem_map] at hw
  obtain ⟨wc, hwc, rfl⟩ := hw
  obtain ⟨h1, h2⟩ := words_sound s.data wc hwc
  constructor
  · intro hcontra
    apply h1
    have : (⟨wc⟩ : String).data = ("" : String).data := by rw [hcontra]
    simpa using this
  · exact h2

lemma strMk_data (s : String) : (⟨s.data⟩ : String) = s := by
  cases s
  rfl

lemma splitWsStr_join (toks : List String)
    (h : ∀ w ∈ toks, w ≠ "" ∧ ∀ c ∈ w.data, c.isWhitespace = false) :
    splitWsStr (joinSpStr toks) = toks := by
  unfold splitWsStr joinSpStr
  have hdata : (⟨joinSp (toks.map String.data)⟩ : String).data =
      joinSp (toks.map String.data) := rfl
  rw [hdata]
  have hside : ∀ w ∈ toks.map String.data, w ≠ [] ∧
      ∀ c ∈ w, c.isWhitespace = false := by
    intro w hw
    rw [List.mem_map] at hw
    obtain ⟨x, hx, rfl⟩ := hw
    obtain ⟨h1, h2⟩ := h x hx
    refine ⟨?_, h2⟩
    intro hcontra
    apply h1
    cases x
    subst hcontra
    rfl
  rw [words_join (toks.map String.data) hside]
  rw [List.map_map]
  have hco : ∀ x ∈ toks, (String.mk ∘ String.data) x = id x :=
    fun x _ => strMk_data x
  rw [List.map_congr_left hco, List.map_id]

/-! ## Lemmas about separator splitting and joining -/

lemma splitOnChar_cons_eq (sep c : Char) (cs : List Char) :
    splitOnChar sep (c :: cs) =
      match splitOnChar sep cs with
      | [] => [[c]]
      | p :: ps => if c = sep then [] :: p :: ps else (c :: p) :: ps := rfl

lemma splitOnChar_ne_nil (sep : Char) : ∀ l, splitOnChar sep l ≠ [] := by
  intro l
  induction l with
  | nil => simp [splitOnChar]
  | cons c cs ih =>
    rw [splitOnChar_cons_eq]
    rcases h : splitOnChar sep cs with _ | ⟨p, ps⟩
    · exact absurd h ih
    · by_cases hc : c = sep <;> simp [hc]

lemma splitOnChar_no_sep (sep : Char) :
    ∀ l, ∀ w ∈ splitOnChar sep l, sep ∉ w := by
  intro l
  induction l with
  | nil =>
    intro w hw
    simp only [splitOnChar, List.mem_singleton] at hw
    subst hw
    simp
  | cons c cs ih =>
    intro w hw
    rcases h : splitOnChar sep cs with _ | ⟨p, ps⟩
    · exact absurd h (splitOnChar_ne_nil sep cs)
    · rw [splitOnChar_cons_eq, h] at hw
      simp only [] at hw
      by_cases hc : c = sep
      · rw [if_pos hc] at hw
        rcases List.mem_cons.mp hw with rfl | hw'
        · simp
        · exact ih w (h ▸ hw')
      · rw [if_neg hc] at hw
        rcases List.mem_cons.mp hw with rfl | hw'
        · intro hmem
          rcases List.mem_cons.mp hmem with rfl | hmem'
          · exact hc rfl
          · exact ih p (h ▸ List.mem_cons_self p ps) hmem'
        · exact ih w (h ▸ List.mem_cons_of_mem p hw')

lemma splitOnChar_sepFree (sep : Char) :
    ∀ (p : List Char), sep ∉ p → splitOnChar sep p = [p] := by
  intro p
  induction p with
  | nil => intro; rfl
  | cons c p' ih =>
    intro hfree
    have hc : c ≠ sep := fun hcc => hfree (hcc ▸ List.mem_cons_self c p')
    have hp' : splitOnChar sep p' = [p'] :=
      ih (fun hmem => hfree (List.mem_cons_of_mem c hmem))
    rw [splitOnChar_cons_eq, hp']
    simp [hc]

lemma splitOnChar_append_sep (sep : Char) :
    ∀ (p t : List Char), sep ∉ p →
      splitOnChar sep (p ++ sep :: t) = p :: splitOnChar sep t := by
  intro p
  induction p with
  | nil =>
    intro t _
    show splitOnChar sep (sep :: t) = [] :: splitOnChar sep t
    rw [splitOnChar_cons_eq]
    rcases h : splitOnChar sep t with _ | ⟨q, qs⟩
    · exact absurd h (splitOnChar_ne_nil sep t)
    · simp
  | cons c p' ih =>
    intro t hfree
    have hc : c ≠ sep := fun hcc => hfree (hcc ▸ List.mem_cons_self c p')
    have hp' := ih t (fun hmem => hfree (List.mem_cons_of_mem c hmem))
    rw [List.cons_append, splitOnChar_cons_eq, hp']
    simp [hc]

lemma splitOnChar_join (sep : Char) :
    ∀ ps : List (List Char), ps ≠ [] → (∀ w ∈ ps, sep ∉ w) →
      splitOnChar sep (joinOnChar sep ps) = ps := by
  intro ps
  induction ps with
  | nil => intro h; exact absurd rfl h
  | cons p ps ih =>
    intro _ hfree
    cases ps with
    | nil =>
      show splitOnChar sep p = [p]
      exact splitOnChar_sepFree sep p (hfree p (List.mem_cons_self p []))
    | cons p2 ps' =>
      have hj : joinOnChar sep (p :: p2 :: ps') =
          p ++ sep :: joinOnChar sep (p2 :: ps') := rfl
      rw [hj, splitOnChar_append_sep sep p _ (hfree p (List.mem_cons_self p _))]
      rw [ih (by simp) (fun w hw => hfree w (List.mem_cons_of_mem p hw))]

lemma splitCommaStr_join (parts : List String) (hne : parts ≠ [])
    (hfree : ∀ p ∈ parts, ',' ∉ p.data) :
    splitCommaStr (joinCommaStr parts) = parts := by
  unfold splitCommaStr joinCommaStr
  have hdata : (⟨joinOnChar ',' (parts.map String.data)⟩ : String).data =
      joinOnChar ',' (parts.map String.data) := rfl
  rw [hdata]
  have hside : ∀ w ∈ parts.map String.data, ',' ∉ w := by
    intro w hw
    rw [List.mem_map] at hw
    obtain ⟨x, hx, rfl⟩ := hw
    exact hfree x hx
  rw [splitOnChar_join ',' (parts.map String.data) (by simpa using hne) hside]
  rw [List.map_map]
  have hco : ∀ x ∈ parts, (String.mk ∘ String.data) x = id x :=
    fun x _ => strMk_data x
  rw [List.map_congr_left hco, List.map_id]

lemma mem_splitCommaStr_free (s : String) :
    ∀ w ∈ splitCommaStr s, ',' ∉ w.data := by
  intro w hw
  unfold splitCommaStr at hw
  rw [List.mem_map] at hw
  obtain ⟨wc, hwc, rfl⟩ := hw
  exact splitOnChar_no_sep ',' s.data wc hwc

/-! ## Lemmas about the catalog pass -/

lemma buildCatalog_dup (g : Graph) :
    ∀ (fs : List Nat) (acc : List DFile),
      (∀ f ∈ fs, ((g.attr f).lfn).isSome) →
      ((∃ f1 ∈ fs, ∃ f2 ∈ fs, f1 ≠ f2 ∧ (g.attr f1).lfn = (g.attr f2).lfn) ∨
       (∃ f ∈ fs, lfnD g f ∈ acc.map DFile.name)) →
      buildCatalog g fs acc = .error .duplicateError := by
  intro fs
  induction fs with
  | nil =>
    intro acc _ hdup
    exfalso
    rcases hdup with ⟨f1, hf1, -⟩ | ⟨f', hf', -⟩
    · exact List.not_mem_nil _ hf1
    · exact List.not_mem_nil _ hf'
  | cons f fs ih =>
    intro acc hsome hdup
    obtain ⟨l, hl⟩ := Option.isSome_iff_exists.mp (hsome f (List.mem_cons_self f fs))
    by_cases hacc : l ∈ acc.map DFile.name
    · simp [buildCatalog, hl, hacc]
    · have hstep : buildCatalog g (f :: fs) acc =
          buildCatalog g fs (acc ++ [{ name := l, pfns := pfnsOf (g.attr f) }]) := by
        simp [buildCatalog, hl, hacc]
      rw [hstep]
      apply ih
      · intro x hx; exact hsome x (List.mem_cons_of_mem _ hx)
      · rcases hdup with ⟨f1, hf1, f2, hf2, hne, heq⟩ | ⟨f', hf', hmem⟩
        · rcases List.mem_cons.mp hf1 with rfl | hf1'
          · rcases List.mem_cons.mp hf2 with rfl | hf2'
            · exact absurd rfl hne
            · refine Or.inr ⟨f2, hf2', ?_⟩
              have hme : (g.attr f2).lfn = some l := heq ▸ hl
              simp [lfnD, hme]
          · rcases List.mem_cons.mp hf2 with rfl | hf2'
            · refine Or.inr ⟨f1, hf1', ?_⟩
              have hme : (g.attr f1).lfn = some l := heq.symm ▸ hl
              simp [lfnD, hme]
            · exact Or.inl ⟨f1, hf1', f2, hf2', hne, heq⟩
        · rcases List.mem_cons.mp hf' with rfl | hf''
          · exact absurd (by simpa [lfnD, hl] using hmem) hacc
          · refine Or.inr ⟨f', hf'', ?_⟩
            simp only [List.map_append]
            exact List.mem_append_left _ hmem

/-! ## The success path of the document compiler -/

lemma ok_bind {α β : Type} (a : α) (f : α → Except DaxErr β) :
    (Except.ok a >>= f) = f a := rfl

lemma mem_parentsOf {g : Graph} {t p : Nat} :
    p ∈ parentsOf g t ↔ ∃ f, (p, f) ∈ g.edges ∧ (f, t) ∈ g.edges := by
  unfold parentsOf
  rw [List.mem_dedup, List.mem_flatMap]
  constructor
  · rintro ⟨f, hf, hp⟩
    exact ⟨f, mem_preds.mp hp, mem_preds.mp hf⟩
  · rintro ⟨f, hpf, hft⟩
    exact ⟨f, mem_preds.mpr hft, mem_preds.mpr hpf⟩

lemma mapM_loop_ok {α β : Type} (fn : α → Except DaxErr β) (g' : α → β) :
    ∀ (l : List α) (acc : List β), (∀ x ∈ l, fn x = .ok (g' x)) →
      List.mapM.loop fn l acc = .ok (acc.reverse ++ l.map g') := by
  intro l
  induction l with
  | nil =>
    intro acc _
    simp [List.mapM.loop]
    rfl
  | cons a l ih =>
    intro acc h
    have ha := h a (List.mem_cons_self a l)
    show (fn a >>= fun b => List.mapM.loop fn l (b :: acc)) = _
    rw [ha, ok_bind]
    rw [ih (g' a :: acc) (fun x hx => h x (List.mem_cons_of_mem a hx))]
    simp

lemma mapM_ok {α β : Type} (fn : α → Except DaxErr β) (g' : α → β)
    (l : List α) (h : ∀ x ∈ l, fn x = .ok (g' x)) :
    l.mapM fn = .ok (l.map g') := by
  rw [show l.mapM fn = List.mapM.loop fn l [] from rfl]
  rw [mapM_loop_ok fn g' l [] h]
  rfl

lemma catalogOf_names (g : Graph) (fs : List Nat) :
    (catalogOf g fs).map DFile.name = fs.map (lfnD g) := by
  simp [catalogOf]

lemma buildCatalog_ok (g : Graph) :
    ∀ (fs : List Nat) (acc : List DFile),
      (∀ f ∈ fs, ((g.attr f).lfn).isSome) →
      (∀ f1 ∈ fs, ∀ f2 ∈ fs, lfnD g f1 = lfnD g f2 → f1 = f2) →
      fs.Nodup →
      (∀ f ∈ fs, lfnD g f ∉ acc.map DFile.name) →
      buildCatalog g fs acc = .ok (acc ++ catalogOf g fs) := by
  intro fs
  induction fs with
  | nil =>
    intro acc _ _ _ _
    simp [buildCatalog, catalogOf]
  | cons f fs ih =>
    intro acc hsome hinj hnd hacc
    obtain ⟨l, hl⟩ := Option.isSome_iff_exists.mp
      (hsome f (List.mem_cons_self f fs))
    have hlfnD : lfnD g f = l := by simp [lfnD, hl]
    have hlacc : l ∉ acc.map DFile.name := by
      rw [← hlfnD]
      exact hacc f (List.mem_cons_self f fs)
    have hstep : buildCatalog g (f :: fs) acc =
        buildCatalog g fs (acc ++ [{ name := l, pfns := pfnsOf (g.attr f) }]) := by
      simp [buildCatalog, hl, hlacc]
    rw [hstep]
    have haccnew : ∀ x ∈ fs,
        lfnD g x ∉ (acc ++ [({ name := l, pfns := pfnsOf (g.attr f) } : DFile)]).map
          DFile.name := by
      intro x hx
      simp only [List.map_append, List.mem_append]
      push_neg
      constructor
      · exact hacc x (List.mem_cons_of_mem f hx)
      · simp only [List.map_cons, List.map_nil, List.mem_singleton]
        intro hcontra
        have hxf : x = f := hinj x (List.mem_cons_of_mem f hx) f
          (List.mem_cons_self f fs) (by rw [hcontra, hlfnD])
        subst hxf
        exact (List.nodup_cons.mp hnd).1 hx
    rw [ih (acc ++ [({ name := l, pfns := pfnsOf (g.attr f) } : DFile)])
      (fun x hx => hsome x (List.mem_cons_of_mem f hx))
      (fun x hx y hy => hinj x (List.mem_cons_of_mem f hx) y (List.mem_cons_of_mem f hy))
      (List.Nodup.of_cons hnd) haccnew]
    have hcons : catalogOf g (f :: fs) =
        ({ name := l, pfns := pfnsOf (g.attr f) } : DFile) :: catalogOf g fs := by
      simp [catalogOf, hlfnD]
    rw [hcons]
    simp

lemma resolveLfn_ok (g : Graph) (names : List String) (f : Nat)
    (hsome : ((g.attr f).lfn).isSome) (hmem : lfnD g f ∈ names) :
    resolveLfn g names f = .ok (lfnD g f) := by
  obtain ⟨l, hl⟩ := Option.isSome_iff_exists.mp hsome
  have hlfnD : lfnD g f = l := by simp [lfnD, hl]
  unfold resolveLfn
  rw [hl, hlfnD]
  show (if l ∈ names then Except.ok l else Except.error DaxErr.keyError) =
    Except.ok l
  rw [if_pos (hlfnD ▸ hmem)]

lemma buildJob_ok (g : Graph) (names : List String) (t : Nat)
    (hname : ((g.attr t).name).isSome)
    (hfree : ∀ tok ∈ tokensOf (g.attr t), tok ∉ names)
    (hpred : ∀ f ∈ preds g t, ((g.attr f).lfn).isSome ∧ lfnD g f ∈ names)
    (hsucc : ∀ f ∈ succs g t, ((g.attr f).lfn).isSome ∧ lfnD g f ∈ names) :
    buildJob g names t = .ok (jobOf g t) := by
  obtain ⟨nm, hnm⟩ := Option.isSome_iff_exists.mp hname
  have hins : (preds g t).mapM (resolveLfn g names) =
      .ok ((preds g t).map (lfnD g)) :=
    mapM_ok _ _ _ (fun f hf => resolveLfn_ok g names f (hpred f hf).1 (hpred f hf).2)
  have houts : (succs g t).mapM (resolveLfn g names) =
      .ok ((succs g t).map (lfnD g)) :=
    mapM_ok _ _ _ (fun f hf => resolveLfn_ok g names f (hsucc f hf).1 (hsucc f hf).2)
  have hargs : argsField names (g.attr t) = (tokensOf (g.attr t)).map Arg.lit := by
    unfold argsField
    rcases hargs0 : (g.attr t).args with _ | s
    · simp [tokensOf, hargs0, splitWsStr, words, wordsAux]
    · by_cases hs : s = ""
      · subst hs
        simp [tokensOf, hargs0, splitWsStr, words, wordsAux]
      · have hfree' : ∀ tok ∈ splitWsStr s, tok ∉ names := by
          intro tok htok
          exact hfree tok (by simpa [tokensOf, hargs0] using htok)
        simp only [hs, if_false]
        rw [substArgs_no_match names (splitWsStr s) hfree']
        simp [tokensOf, hargs0]
  unfold buildJob
  rw [hnm]
  dsimp only
  rw [hins, ok_bind, houts, ok_bind, hargs]
  have hnmD : nm = nameD g t := by simp [nameD, hnm]
  rw [hnmD]
  rfl

/-- `write` on a correctly classified, schema-conforming graph succeeds and
produces exactly the expected document. -/
lemma writeDax_ok (g : Graph) (fs ts : List Nat) (nm : String)
    (hsome : ∀ f ∈ fs, ((g.attr f).lfn).isSome)
    (hinj : ∀ f1 ∈ fs, ∀ f2 ∈ fs, lfnD g f1 = lfnD g f2 → f1 = f2)
    (hndfs : fs.Nodup)
    (hname : ∀ t ∈ ts, ((g.attr t).name).isSome)
    (hfree : ∀ t ∈ ts, ∀ tok ∈ tokensOf (g.attr t), tok ∉ fs.map (lfnD g))
    (hpred : ∀ t ∈ ts, ∀ f ∈ preds g t, f ∈ fs)
    (hsucc : ∀ t ∈ ts, ∀ f ∈ succs g t, f ∈ fs)
    (hpar : ∀ t ∈ ts, ∀ p ∈ parentsOf g t, p ∈ ts) :
    writeDax g fs ts nm = .ok (docOf g fs ts nm) := by
  have hcat := buildCatalog_ok g fs [] hsome hinj hndfs (by simp)
  have hjobs : ts.mapM (buildJob g ((catalogOf g fs).map DFile.name)) =
      .ok (ts.map (jobOf g)) := by
    apply mapM_ok
    intro t ht
    apply buildJob_ok g _ t (hname t ht)
    · intro tok htok
      rw [catalogOf_names]
      exact hfree t ht tok htok
    · intro f hf
      have hffs := hpred t ht f hf
      refine ⟨hsome f hffs, ?_⟩
      rw [catalogOf_names]
      exact List.mem_map_of_mem (lfnD g) hffs
    · intro f hf
      have hffs := hsucc t ht f hf
      refine ⟨hsome f hffs, ?_⟩
      rw [catalogOf_names]
      exact List.mem_map_of_mem (lfnD g) hffs
  have hall : (ts.all fun t => (parentsOf g t).all (fun p => decide (p ∈ ts))) = true := by
    rw [List.all_eq_true]
    intro t ht
    rw [List.all_eq_true]
    intro p hp
    simpa using hpar t ht p hp
  unfold writeDax
  rw [hcat, ok_bind, List.nil_append, hjobs, ok_bind]
  rw [if_pos hall]
  rfl

/-! ## The logical-name mapping of the reverse parser -/

lemma mapping_foldl_nomatch (l : String) :
    ∀ (dfs : List DFile) (n : Nat) (a0 : Option Nat),
      (∀ df ∈ dfs, df.name ≠ l) →
      (List.enumFrom n dfs).foldl
        (fun acc p => if p.2.name = l then some p.1 else acc) a0 = a0 := by
  intro dfs
  induction dfs with
  | nil => intro n a0 _; rfl
  | cons d dfs ih =>
    intro n a0 h
    show (List.enumFrom (n + 1) dfs).foldl _
      (if d.name = l then some n else a0) = a0
    rw [if_neg (h d (List.mem_cons_self d dfs))]
    exact ih (n + 1) a0 (fun x hx => h x (List.mem_cons_of_mem d hx))

lemma mapping_foldl_found (g : Graph) (f0 : Nat) :
    ∀ (fs : List Nat) (n : Nat) (a0 : Option Nat),
      (∀ f1 ∈ fs, ∀ f2 ∈ fs, lfnD g f1 = lfnD g f2 → f1 = f2) →
      fs.Nodup → f0 ∈ fs →
      (List.enumFrom n (catalogOf g fs)).foldl
        (fun acc p => if p.2.name = lfnD g f0 then some p.1 else acc) a0 =
        some (n + fs.indexOf f0) := by
  intro fs
  induction fs with
  | nil => intro n a0 _ _ h; cases h
  | cons f fs ih =>
    intro n a0 hinj hnd hf0
    have hcat : catalogOf g (f :: fs) =
        ({ name := lfnD g f, pfns := pfnsOf (g.attr f) } : DFile) ::
          catalogOf g fs := rfl
    rw [hcat]
    show (List.enumFrom (n + 1) (catalogOf g fs)).foldl _
      (if lfnD g f = lfnD g f0 then some n else a0) = _
    by_cases hff : f0 = f
    · subst hff
      rw [if_pos rfl]
      have hnomatch : ∀ df ∈ catalogOf g fs, df.name ≠ lfnD g f0 := by
        intro df hdf
        unfold catalogOf at hdf
        rw [List.mem_map] at hdf
        obtain ⟨x, hx, rfl⟩ := hdf
        intro hcontra
        have hxf : x = f0 := hinj x (List.mem_cons_of_mem f0 hx) f0
          (List.mem_cons_self f0 fs) hcontra
        subst hxf
        exact (List.nodup_cons.mp hnd).1 hx
      rw [mapping_foldl_nomatch (lfnD g f0) (catalogOf g fs) (n + 1) _ hnomatch]
      simp [List.indexOf_cons_self]
    · have hf0fs : f0 ∈ fs := by
        rcases List.mem_cons.mp hf0 with h | h
        · exact absurd h hff
        · exact h
      have hne : lfnD g f ≠ lfnD g f0 := by
        intro hcontra
        exact hff (hinj f (List.mem_cons_self f fs) f0
          (List.mem_cons_of_mem f hf0fs) hcontra).symm
      rw [if_neg hne]
      rw [ih (n + 1) a0
        (fun x hx y hy => hinj x (List.mem_cons_of_mem f hx) y (List.mem_cons_of_mem f hy))
        (List.Nodup.of_cons hnd) hf0fs]
      congr 1
      rw [List.indexOf_cons_ne _ (fun hcontra => hff hcontra.symm)]
      omega

lemma mappingOf_catalog (g : Graph) (fs : List Nat)
    (hinj : ∀ f1 ∈ fs, ∀ f2 ∈ fs, lfnD g f1 = lfnD g f2 → f1 = f2)
    (hnd : fs.Nodup) (f0 : Nat) (hf0 : f0 ∈ fs) :
    mappingOf (catalogOf g fs) (lfnD g f0) = some (fs.indexOf f0) := by
  unfold mappingOf
  rw [show (catalogOf g fs).enum = List.enumFrom 0 (catalogOf g fs) from rfl]
  rw [mapping_foldl_found g f0 fs 0 none hinj hnd hf0]
  simp

lemma mapping_foldl_inv (l : String) :
    ∀ (dfs : List DFile) (n : Nat) (a0 : Option Nat) (u : Nat),
      (List.enumFrom n dfs).foldl
        (fun acc p => if p.2.name = l then some p.1 else acc) a0 = some u →
      a0 = some u ∨ ∃ i, ∃ h : i < dfs.length, u = n + i ∧ (dfs.get ⟨i, h⟩).name = l := by
  intro dfs
  induction dfs with
  | nil => intro n a0 u h; exact Or.inl h
  | cons d dfs ih =>
    intro n a0 u h
    rw [show List.enumFrom n (d :: dfs) = (n, d) :: List.enumFrom (n + 1) dfs
      from rfl] at h
    rw [List.foldl_cons] at h
    rcases ih (n + 1) _ u h with hacc | ⟨i, hi, rfl, hname⟩
    · by_cases hd : d.name = l
      · rw [if_pos hd] at hacc
        have hnu : n = u := Option.some.inj hacc
        refine Or.inr ⟨0, by simp, by omega, hd⟩
      · rw [if_neg hd] at hacc
        exact Or.inl hacc
    · refine Or.inr ⟨i + 1, by simpa using hi, ?_, by simpa using hname⟩
      omega

lemma mappingOf_some_inv (g : Graph) (fs : List Nat)
    (hnd : fs.Nodup) (l : String) (u : Nat)
    (h : mappingOf (catalogOf g fs) l = some u) :
    ∃ f ∈ fs, lfnD g f = l ∧ u = fs.indexOf f := by
  unfold mappingOf at h
  rw [show (catalogOf g fs).enum = List.enumFrom 0 (catalogOf g fs) from rfl] at h
  rcases mapping_foldl_inv l (catalogOf g fs) 0 none u h with hc | ⟨i, hi, rfl, hname⟩
  · cases hc
  · have hlen : i < fs.length := by simpa [catalogOf] using hi
    simp only [catalogOf, List.get_eq_getElem, List.getElem_map] at hname
    refine ⟨fs[i], List.getElem_mem hlen, hname, ?_⟩
    have hidx : fs.indexOf fs[i] = i := by
      have hlt : fs.indexOf fs[i] < fs.length :=
        List.indexOf_lt_length.mpr (List.getElem_mem hlen)
      have := List.getElem_indexOf hlt
      exact (List.Nodup.getElem_inj_iff hnd).mp this
    omega

/-! ## The stream-redirection bookkeeping -/

lemma foldl_assign_nomatch (g : Graph) (code : Nat) :
    ∀ (l : List Nat) (acc : Option String),
      (∀ f ∈ l, streamsOf (g.attr f) &&& code = 0) →
      l.foldl (fun acc f =>
        if ((g.attr f).streams.getD 0) &&& code != 0 then (g.attr f).lfn else acc)
        acc = acc := by
  intro l
  induction l with
  | nil => intro acc _; rfl
  | cons x xs ih =>
    intro acc h
    rw [List.foldl_cons]
    have hx : (((g.attr x).streams.getD 0) &&& code != 0) = false := by
      have := h x (List.mem_cons_self x xs)
      unfold streamsOf at this
      simp [this]
    rw [hx]
    simp only [Bool.false_eq_true, if_false]
    exact ih acc (fun f hf => h f (List.mem_cons_of_mem x hf))

lemma lastStreamRef_eq_none (g : Graph) (t code : Nat)
    (h : ∀ f ∈ succs g t, streamsOf (g.attr f) &&& code = 0) :
    lastStreamRef g t code = none :=
  foldl_assign_nomatch g code (succs g t) none h

lemma foldl_assign_found (g : Graph) (code f0 : Nat)
    (hflag : streamsOf (g.attr f0) &&& code ≠ 0) :
    ∀ (l : List Nat) (acc : Option String), f0 ∈ l →
      (∀ x ∈ l, streamsOf (g.attr x) &&& code ≠ 0 → x = f0) →
      l.foldl (fun acc f =>
        if ((g.attr f).streams.getD 0) &&& code != 0 then (g.attr f).lfn else acc)
        acc = (g.attr f0).lfn := by
  intro l
  induction l with
  | nil => intro acc h; cases h
  | cons x xs ih =>
    intro acc hmem huniq
    rw [List.foldl_cons]
    by_cases hxs : f0 ∈ xs
    · exact ih _ hxs (fun y hy => huniq y (List.mem_cons_of_mem x hy))
    · have hx0 : x = f0 := by
        rcases List.mem_cons.mp hmem with h | h
        · exact h.symm
        · exact absurd h hxs
      subst hx0
      have hcond : (((g.attr x).streams.getD 0) &&& code != 0) = true := by
        unfold streamsOf at hflag
        simpa using hflag
      rw [hcond]
      simp only [if_true]
      apply foldl_assign_nomatch
      intro y hy
      by_contra hcontra
      exact hxs (huniq y (List.mem_cons_of_mem x hy) hcontra ▸ hy)

lemma lastStreamRef_eq (g : Graph) (t code f0 : Nat)
    (hmem : f0 ∈ succs g t)
    (hflag : streamsOf (g.attr f0) &&& code ≠ 0)
    (huniq : ∀ x ∈ succs g t, streamsOf (g.attr x) &&& code ≠ 0 → x = f0) :
    lastStreamRef g t code = (g.attr f0).lfn :=
  foldl_assign_found g code f0 hflag (succs g t) none hmem huniq

lemma foldl_assign_inv (g : Graph) (code : Nat) (s : String) :
    ∀ (l : List Nat) (acc : Option String),
      l.foldl (fun acc f =>
        if ((g.attr f).streams.getD 0) &&& code != 0 then (g.attr f).lfn else acc)
        acc = some s →
      acc = some s ∨
        ∃ f ∈ l, streamsOf (g.attr f) &&& code ≠ 0 ∧ (g.attr f).lfn = some s := by
  intro l
  induction l with
  | nil => intro acc h; exact Or.inl h
  | cons x xs ih =>
    intro acc h
    rw [List.foldl_cons] at h
    rcases ih _ h with hacc | ⟨f, hf, hflag, hlfn⟩
    · by_cases hx : streamsOf (g.attr x) &&& code ≠ 0
      · rw [if_pos (by unfold streamsOf at hx; simpa using hx)] at hacc
        exact Or.inr ⟨x, List.mem_cons_self x xs, hx, hacc⟩
      · rw [if_neg (by unfold streamsOf at hx; simpa using hx)] at hacc
        exact Or.inl hacc
    · exact Or.inr ⟨f, List.mem_cons_of_mem x hf, hflag, hlfn⟩

lemma lastStreamRef_some_inv (g : Graph) (t code : Nat) (s : String)
    (h : lastStreamRef g t code = some s) :
    ∃ f ∈ succs g t, streamsOf (g.attr f) &&& code ≠ 0 ∧
      (g.attr f).lfn = some s := by
  rcases foldl_assign_inv g code s (succs g t) none h with hc | hres
  · cases hc
  · exact hres

/-! ## The reconstruction of plain argument text -/

lemma filterMap_lit (toks : List String) :
    (toks.map Arg.lit).filterMap
      (fun a => match a with | .lit s => some s | .file _ => none) = toks := by
  induction toks with
  | nil => rfl
  | cons x xs ih => simp [List.filterMap_cons, ih]

lemma filterMap_lit_file (toks : List String) :
    (toks.map Arg.lit).filterMap
      (fun a => match a with | .file l => some l | .lit _ => none) = [] := by
  induction toks with
  | nil => rfl
  | cons x xs ih => simp [List.filterMap_cons, ih]

lemma argReprOf_lits (toks : List String) :
    argReprOf (toks.map Arg.lit) = .plain (joinSpStr toks) := by
  unfold argReprOf
  rw [filterMap_lit, filterMap_lit_file]
  simp

lemma stringify_lits (toks : List String)
    (h : ∀ w ∈ toks, w ≠ "" ∧ ∀ c ∈ w.data, c.isWhitespace = false) :
    stringify (argReprOf (toks.map Arg.lit)) = .ok (joinSpStr toks) := by
  rw [argReprOf_lits]
  show Except.ok (joinSpStr (splitWsStr (joinSpStr toks))) = _
  rw [splitWsStr_join toks h]

/-! ## The stream-update bookkeeping of the reverse parse -/

lemma applyUpdates_append :
    ∀ (us vs : List (Nat × Nat)) (ns : List (Nat × Attrs)),
      applyUpdates (us ++ vs) ns = applyUpdates vs (applyUpdates us ns) := by
  intro us
  induction us with
  | nil => intro vs ns; rfl
  | cons q us ih =>
    intro vs ns
    obtain ⟨u, c⟩ := q
    show applyUpdates (us ++ vs) (applyUpdate u c ns) = _
    rw [ih vs (applyUpdate u c ns)]
    rfl

lemma applyCodes_cons (a : Attrs) (c : Nat) (cs : List Nat) :
    applyCodes a (c :: cs) =
      applyCodes { a with streams := some ((a.streams.getD 0) ||| c) } cs := rfl

lemma applyUpdates_map_eq :
    ∀ (us : List (Nat × Nat)) (ns : List (Nat × Attrs)),
      applyUpdates us ns = ns.map (fun p =>
        (p.1, applyCodes p.2 ((us.filter (fun q => q.1 == p.1)).map Prod.snd))) := by
  intro us
  induction us with
  | nil =>
    intro ns
    show ns = _
    simp [applyCodes]
  | cons q us ih =>
    intro ns
    obtain ⟨u, c⟩ := q
    show applyUpdates us (applyUpdate u c ns) = _
    rw [ih (applyUpdate u c ns)]
    unfold applyUpdate
    rw [List.map_map]
    apply List.map_congr_left
    intro p _
    simp only [Function.comp_apply]
    by_cases hpu : p.1 = u
    · rw [if_pos hpu]
      have hfilter : ((u, c) :: us).filter (fun q => q.1 == p.1) =
          (u, c) :: us.filter (fun q => q.1 == p.1) := by
        rw [List.filter_cons]
        simp [hpu]
      rw [hfilter]
      simp only [List.map_cons]
      rw [applyCodes_cons]
    · rw [if_neg hpu]
      have hfilter : ((u, c) :: us).filter (fun q => q.1 == p.1) =
          us.filter (fun q => q.1 == p.1) := by
        rw [List.filter_cons]
        simp [Ne.symm hpu]
      rw [hfilter]

lemma applyUpdates_fst (us : List (Nat × Nat)) (ns : List (Nat × Attrs)) :
    (applyUpdates us ns).map Prod.fst = ns.map Prod.fst := by
  rw [applyUpdates_map_eq, List.map_map]
  rfl

lemma applyCodes_lfn : ∀ (cs : List Nat) (a : Attrs), (applyCodes a cs).lfn = a.lfn := by
  intro cs
  induction cs with
  | nil => intro a; rfl
  | cons c cs ih => intro a; rw [applyCodes_cons, ih]

lemma applyCodes_name : ∀ (cs : List Nat) (a : Attrs), (applyCodes a cs).name = a.name := by
  intro cs
  induction cs with
  | nil => intro a; rfl
  | cons c cs ih => intro a; rw [applyCodes_cons, ih]

lemma applyCodes_args : ∀ (cs : List Nat) (a : Attrs), (applyCodes a cs).args = a.args := by
  intro cs
  induction cs with
  | nil => intro a; rfl
  | cons c cs ih => intro a; rw [applyCodes_cons, ih]

lemma applyCodes_urls : ∀ (cs : List Nat) (a : Attrs), (applyCodes a cs).urls = a.urls := by
  intro cs
  induction cs with
  | nil => intro a; rfl
  | cons c cs ih => intro a; rw [applyCodes_cons, ih]

lemma applyCodes_sites : ∀ (cs : List Nat) (a : Attrs), (applyCodes a cs).sites = a.sites := by
  intro cs
  induction cs with
  | nil => intro a; rfl
  | cons c cs ih => intro a; rw [applyCodes_cons, ih]

lemma pfnsOf_congr (a b : Attrs) (hu : a.urls = b.urls) (hs : a.sites = b.sites) :
    pfnsOf a = pfnsOf b := by
  unfold pfnsOf
  rw [hu, hs]

lemma streamsOf_applyCodes :
    ∀ (cs : List Nat) (a : Attrs),
      streamsOf (applyCodes a cs) = cs.foldl (fun s c => s ||| c) (streamsOf a) := by
  intro cs
  induction cs with
  | nil => intro a; rfl
  | cons c cs ih =>
    intro a
    rw [applyCodes_cons, ih, List.foldl_cons]
    rfl

/-! ## The success path of the reverse parser -/

lemma applyStream_none (files : List DFile) (v code : Nat) (st : PState) :
    applyStream files v none code st = .ok st := rfl

lemma applyStream_some (files : List DFile) (v : Nat) (l : String) (code : Nat)
    (st : PState) (u : Nat) (hu : mappingOf files l = some u) :
    applyStream files v (some l) code st =
      .ok { st with
            fileNodes := applyUpdate u code st.fileNodes,
            edges := st.edges ++ [(v, u)] } := by
  unfold applyStream
  dsimp only
  rw [hu]

lemma processJob_ok (g : Graph) (fs : List Nat) (t v : Nat) (st : PState)
    (hins : ∀ f ∈ preds g t,
      mappingOf (catalogOf g fs) (lfnD g f) = some (fs.indexOf f))
    (houts : ∀ f ∈ succs g t,
      mappingOf (catalogOf g fs) (lfnD g f) = some (fs.indexOf f))
    (hso : ∀ l, lastStreamRef g t 1 = some l →
      (mappingOf (catalogOf g fs) l).isSome)
    (hse : ∀ l, lastStreamRef g t 2 = some l →
      (mappingOf (catalogOf g fs) l).isSome) :
    processJob (catalogOf g fs) v (jobOf g t) st =
      .ok { fileNodes := applyUpdates (jobUpdates g fs t) st.fileNodes,
            taskNodes := st.taskNodes ++ [(v, taskAttrsOf g t)],
            edges := st.edges ++ jobEdges g fs v t } := by
  have hargs : argsAttrOf (jobOf g t).args = Except.ok (taskAttrsOf g t).args := by
    show argsAttrOf ((tokensOf (g.attr t)).map Arg.lit) = _
    rcases htoks : tokensOf (g.attr t) with _ | ⟨w, ws⟩
    · simp [argsAttrOf, taskAttrsOf, htoks]
      rfl
    · have hsound := splitWsStr_sound ((g.attr t).args.getD "")
      rw [show splitWsStr ((g.attr t).args.getD "") = tokensOf (g.attr t) from rfl,
        htoks] at hsound
      have hstr := stringify_lits (w :: ws) hsound
      show (stringify (argReprOf ((w :: ws).map Arg.lit)) >>= fun s =>
        pure (some s)) = _
      rw [hstr, ok_bind]
      show Except.ok (some (joinSpStr (w :: ws))) = _
      simp [taskAttrsOf, htoks]
  have hinsM : (jobOf g t).usesIn.mapM (fun l =>
      match mappingOf (catalogOf g fs) l with
      | none => Except.error DaxErr.keyError
      | some u => Except.ok u) =
      .ok ((preds g t).map (fun f => fs.indexOf f)) := by
    show ((preds g t).map (lfnD g)).mapM _ = _
    rw [mapM_ok _ (fun l => (mappingOf (catalogOf g fs) l).getD 0) _ ?_]
    · rw [List.map_map]
      congr 1
      apply List.map_congr_left
      intro f hf
      simp [Function.comp_apply, hins f hf]
    · intro l hl
      rw [List.mem_map] at hl
      obtain ⟨f, hf, rfl⟩ := hl
      simp only [hins f hf, Option.getD_some]
  have houtsM : (jobOf g t).usesOut.mapM (fun l =>
      match mappingOf (catalogOf g fs) l with
      | none => Except.error DaxErr.keyError
      | some u => Except.ok u) =
      .ok ((succs g t).map (fun f => fs.indexOf f)) := by
    show ((succs g t).map (lfnD g)).mapM _ = _
    rw [mapM_ok _ (fun l => (mappingOf (catalogOf g fs) l).getD 0) _ ?_]
    · rw [List.map_map]
      congr 1
      apply List.map_congr_left
      intro f hf
      simp [Function.comp_apply, houts f hf]
    · intro l hl
      rw [List.mem_map] at hl
      obtain ⟨f, hf, rfl⟩ := hl
      simp only [houts f hf, Option.getD_some]
  unfold processJob
  rw [hargs, ok_bind, hinsM, ok_bind, houtsM, ok_bind]
  rw [show (jobOf g t).stdout = lastStreamRef g t 1 from rfl,
      show (jobOf g t).stderr = lastStreamRef g t 2 from rfl]
  rcases hso1 : lastStreamRef g t 1 with _ | l1 <;>
    rcases hse1 : lastStreamRef g t 2 with _ | l2
  · rw [applyStream_none, ok_bind, applyStream_none]
    have hupd : jobUpdates g fs t = [] := by
      unfold jobUpdates
      rw [hso1, hse1]
      rfl
    rw [hupd]
    congr 1
    unfold jobEdges
    rw [hupd]
    simp [applyUpdates, taskAttrsOf, jobOf, List.map_map, Function.comp_def]
  · obtain ⟨u2, hu2⟩ := Option.isSome_iff_exists.mp (hse l2 hse1)
    rw [applyStream_none, ok_bind, applyStream_some _ _ _ _ _ _ hu2]
    have hupd : jobUpdates g fs t = [(u2, 2)] := by
      unfold jobUpdates
      rw [hso1, hse1]
      dsimp only
      rw [hu2]
      rfl
    rw [hupd]
    congr 1
    unfold jobEdges
    rw [hupd]
    simp [applyUpdates, taskAttrsOf, jobOf, List.map_map, List.append_assoc, Function.comp_def]
  · obtain ⟨u1, hu1⟩ := Option.isSome_iff_exists.mp (hso l1 hso1)
    rw [applyStream_some _ _ _ _ _ _ hu1, ok_bind, applyStream_none]
    have hupd : jobUpdates g fs t = [(u1, 1)] := by
      unfold jobUpdates
      rw [hso1, hse1]
      dsimp only
      rw [hu1]
      rfl
    rw [hupd]
    congr 1
    unfold jobEdges
    rw [hupd]
    simp [applyUpdates, taskAttrsOf, jobOf, List.map_map, List.append_assoc, Function.comp_def]
  · obtain ⟨u1, hu1⟩ := Option.isSome_iff_exists.mp (hso l1 hso1)
    obtain ⟨u2, hu2⟩ := Option.isSome_iff_exists.mp (hse l2 hse1)
    rw [applyStream_some _ _ _ _ _ _ hu1, ok_bind, applyStream_some _ _ _ _ _ _ hu2]
    have hupd : jobUpdates g fs t = [(u1, 1), (u2, 2)] := by
      unfold jobUpdates
      rw [hso1, hse1]
      dsimp only
      rw [hu1, hu2]
      rfl
    rw [hupd]
    congr 1
    unfold jobEdges
    rw [hupd]
    simp [applyUpdates, taskAttrsOf, jobOf, List.map_map, List.append_assoc, Function.comp_def]

/-- The per-task side conditions under which the reverse parse of a compiled
job succeeds. -/
lemma processJobs_ok (g : Graph) (fs : List Nat) :
    ∀ (ts' : List Nat) (j : Nat) (st : PState),
      (∀ t ∈ ts',
        (∀ f ∈ preds g t,
          mappingOf (catalogOf g fs) (lfnD g f) = some (fs.indexOf f)) ∧
        (∀ f ∈ succs g t,
          mappingOf (catalogOf g fs) (lfnD g f) = some (fs.indexOf f)) ∧
        (∀ l, lastStreamRef g t 1 = some l →
          (mappingOf (catalogOf g fs) l).isSome) ∧
        (∀ l, lastStreamRef g t 2 = some l →
          (mappingOf (catalogOf g fs) l).isSome)) →
      processJobs (catalogOf g fs) (List.enumFrom j (ts'.map (jobOf g))) st =
        .ok { fileNodes := applyUpdates (allUpdates g fs ts') st.fileNodes,
              taskNodes := st.taskNodes ++ allTaskNodes g (fs.length + j) ts',
              edges := st.edges ++ allEdges g fs (fs.length + j) ts' } := by
  intro ts'
  induction ts' with
  | nil =>
    intro j st _
    show Except.ok st = _
    simp [allUpdates, allTaskNodes, allEdges, applyUpdates]
  | cons t ts ih =>
    intro j st hts
    obtain ⟨h1, h2, h3, h4⟩ := hts t (List.mem_cons_self t ts)
    show (processJob (catalogOf g fs) ((catalogOf g fs).length + j) (jobOf g t) st >>=
      fun st1 =>
        processJobs (catalogOf g fs) (List.enumFrom (j + 1) (ts.map (jobOf g))) st1) = _
    rw [show (catalogOf g fs).length = fs.length from by simp [catalogOf]]
    rw [processJob_ok g fs t (fs.length + j) st h1 h2 h3 h4, ok_bind]
    rw [ih (j + 1) _ (fun x hx => hts x (List.mem_cons_of_mem t hx))]
    congr 1
    show PState.mk _ _ _ = PState.mk _ _ _
    have hfn : applyUpdates (allUpdates g fs ts)
        (applyUpdates (jobUpdates g fs t) st.fileNodes) =
        applyUpdates (allUpdates g fs (t :: ts)) st.fileNodes := by
      rw [show allUpdates g fs (t :: ts) = jobUpdates g fs t ++ allUpdates g fs ts
        from rfl]
      rw [applyUpdates_append]
    have htn : (st.taskNodes ++ [(fs.length + j, taskAttrsOf g t)]) ++
        allTaskNodes g (fs.length + (j + 1)) ts =
        st.taskNodes ++ allTaskNodes g (fs.length + j) (t :: ts) := by
      rw [show allTaskNodes g (fs.length + j) (t :: ts) =
        (fs.length + j, taskAttrsOf g t) :: allTaskNodes g (fs.length + j + 1) ts
        from rfl]
      rw [show fs.length + (j + 1) = fs.length + j + 1 from rfl]
      simp
    have hed : (st.edges ++ jobEdges g fs (fs.length + j) t) ++
        allEdges g fs (fs.length + (j + 1)) ts =
        st.edges ++ allEdges g fs (fs.length + j) (t :: ts) := by
      rw [show allEdges g fs (fs.length + j) (t :: ts) =
        jobEdges g fs (fs.length + j) t ++ allEdges g fs (fs.length + j + 1) ts
        from rfl]
      rw [show fs.length + (j + 1) = fs.length + j + 1 from rfl]
      simp
    rw [hfn, htn, hed]

/-- The reverse parse of the compiled document succeeds and yields the
expected reconstruction. -/
lemma parseDax_ok (g : Graph) (fs ts : List Nat) (nm : String)
    (hts : ∀ t ∈ ts,
      (∀ f ∈ preds g t,
        mappingOf (catalogOf g fs) (lfnD g f) = some (fs.indexOf f)) ∧
      (∀ f ∈ succs g t,
        mappingOf (catalogOf g fs) (lfnD g f) = some (fs.indexOf f)) ∧
      (∀ l, lastStreamRef g t 1 = some l →
        (mappingOf (catalogOf g fs) l).isSome) ∧
      (∀ l, lastStreamRef g t 2 = some l →
        (mappingOf (catalogOf g fs) l).isSome)) :
    parseDax (docOf g fs ts nm) = .ok (roundTripGraph g fs ts) := by
  unfold parseDax
  rw [show (docOf g fs ts nm).files = catalogOf g fs from rfl]
  rw [show (docOf g fs ts nm).jobs = ts.map (jobOf g) from rfl]
  rw [show (ts.map (jobOf g)).enum = List.enumFrom 0 (ts.map (jobOf g)) from rfl]
  rw [processJobs_ok g fs ts 0 _ hts, ok_bind]
  rfl

/-! ## Bit arithmetic on small stream masks -/

lemma orStep (a c : Nat) (ha : a < 4) (hc : c = 1 ∨ c = 2) :
    (a ||| c) < 4 ∧
    ((a ||| c) &&& 1 ≠ 0 ↔ (a &&& 1 ≠ 0 ∨ c = 1)) ∧
    ((a ||| c) &&& 2 ≠ 0 ↔ (a &&& 2 ≠ 0 ∨ c = 2)) := by
  have h4 : a = 0 ∨ a = 1 ∨ a = 2 ∨ a = 3 := by omega
  rcases h4 with rfl | rfl | rfl | rfl <;> rcases hc with rfl | rfl <;> decide

lemma foldl_or_bits :
    ∀ (cs : List Nat) (a : Nat), a < 4 → (∀ c ∈ cs, c = 1 ∨ c = 2) →
      (cs.foldl (fun s c => s ||| c) a) < 4 ∧
      ((cs.foldl (fun s c => s ||| c) a) &&& 1 ≠ 0 ↔ (a &&& 1 ≠ 0 ∨ 1 ∈ cs)) ∧
      ((cs.foldl (fun s c => s ||| c) a) &&& 2 ≠ 0 ↔ (a &&& 2 ≠ 0 ∨ 2 ∈ cs)) := by
  intro cs
  induction cs with
  | nil =>
    intro a ha _
    simp [ha]
  | cons c cs ih =>
    intro a ha hcs
    have hc := hcs c (List.mem_cons_self c cs)
    obtain ⟨hlt, hb1, hb2⟩ := orStep a c ha hc
    obtain ⟨ihlt, ihb1, ihb2⟩ := ih (a ||| c) hlt
      (fun x hx => hcs x (List.mem_cons_of_mem c hx))
    rw [List.foldl_cons]
    refine ⟨ihlt, ?_, ?_⟩
    · rw [ihb1, hb1, List.mem_cons]
      constructor
      · rintro ((h | h) | h)
        · exact Or.inl h
        · exact Or.inr (Or.inl h.symm)
        · exact Or.inr (Or.inr h)
      · rintro (h | h | h)
        · exact Or.inl (Or.inl h)
        · exact Or.inl (Or.inr h.symm)
        · exact Or.inr h
    · rw [ihb2, hb2, List.mem_cons]
      constructor
      · rintro ((h | h) | h)
        · exact Or.inl h
        · exact Or.inr (Or.inl h.symm)
        · exact Or.inr (Or.inr h)
      · rintro (h | h | h)
        · exact Or.inl (Or.inl h)
        · exact Or.inl (Or.inr h.symm)
        · exact Or.inr h

lemma bits_ext (a b : Nat) (ha : a < 4) (hb : b < 4)
    (h1 : (a &&& 1 ≠ 0) ↔ (b &&& 1 ≠ 0)) (h2 : (a &&& 2 ≠ 0) ↔ (b &&& 2 ≠ 0)) :
    a = b := by
  interval_cases a <;> interval_cases b <;> revert h1 h2 <;> decide

/-! ## Which stream updates the reverse parse performs -/

lemma mem_allUpdates (g : Graph) (fs : List Nat) (q : Nat × Nat) :
    ∀ ts' : List Nat,
      (q ∈ allUpdates g fs ts' ↔ ∃ t ∈ ts', q ∈ jobUpdates g fs t) := by
  intro ts'
  induction ts' with
  | nil => simp [allUpdates]
  | cons t ts ih =>
    show q ∈ jobUpdates g fs t ++ allUpdates g fs ts ↔ _
    rw [List.mem_append, ih]
    constructor
    · rintro (h | ⟨x, hx, hq⟩)
      · exact ⟨t, List.mem_cons_self t ts, h⟩
      · exact ⟨x, List.mem_cons_of_mem t hx, hq⟩
    · rintro ⟨x, hx, hq⟩
      rcases List.mem_cons.mp hx with rfl | hx'
      · exact Or.inl hq
      · exact Or.inr ⟨x, hx', hq⟩

lemma mem_jobUpdates_code (g : Graph) (fs : List Nat) (t : Nat) (u code : Nat)
    (hcode : code = 1 ∨ code = 2) :
    ((u, code) ∈ jobUpdates g fs t ↔
      ∃ l, lastStreamRef g t code = some l ∧
        mappingOf (catalogOf g fs) l = some u) := by
  unfold jobUpdates
  rcases h1 : lastStreamRef g t 1 with _ | l1 <;>
    rcases h2 : lastStreamRef g t 2 with _ | l2 <;>
    rcases hcode with rfl | rfl <;>
    simp only [h1, h2, List.mem_append, List.not_mem_nil, List.mem_singleton,
      or_false, false_or] <;>
    [skip; skip; skip;
     rcases hm2 : mappingOf (catalogOf g fs) l2 with _ | u2;
     rcases hm1 : mappingOf (catalogOf g fs) l1 with _ | u1; skip;
     rcases hm1 : mappingOf (catalogOf g fs) l1 with _ | u1;
     rcases hm2 : mappingOf (catalogOf g fs) l2 with _ | u2] <;>
    simp_all <;> aesop

lemma mem_jobUpdates_snd (g : Graph) (fs : List Nat) (t : Nat) :
    ∀ q ∈ jobUpdates g fs t, q.2 = 1 ∨ q.2 = 2 := by
  intro q hq
  unfold jobUpdates at hq
  rcases h1 : lastStreamRef g t 1 with _ | l1 <;>
    rcases h2 : lastStreamRef g t 2 with _ | l2 <;>
    rw [h1, h2] at hq <;>
    [skip;
     rcases hm2 : mappingOf (catalogOf g fs) l2 with _ | u2;
     rcases hm1 : mappingOf (catalogOf g fs) l1 with _ | u1;
     rcases hm1 : mappingOf (catalogOf g fs) l1 with _ | u1] <;>
    simp_all <;> aesop

lemma indexOf_inj (l : List Nat) (x y : Nat) (hx : x ∈ l) (hy : y ∈ l)
    (h : l.indexOf x = l.indexOf y) : x = y := by
  have h1 := List.getElem_indexOf (List.indexOf_lt_length.mpr hx)
  have h2 := List.getElem_indexOf (List.indexOf_lt_length.mpr hy)
  rw [← h1, ← h2]
  simp only [h]

lemma and_one_ne_zero_imp {s : Nat} (h : s &&& 1 ≠ 0) : s ≠ 0 := by
  intro hcontra
  subst hcontra
  exact h rfl

lemma and_two_ne_zero_imp {s : Nat} (h : s &&& 2 ≠ 0) : s ≠ 0 := by
  intro hcontra
  subst hcontra
  exact h rfl

/-- The accumulated stream bitset a file node carries after the reverse
parse equals its original stream bitset. -/
lemma streams_roundtrip (g : Graph) (fs ts : List Nat) (f : Nat) (hf : f ∈ fs)
    (hsome : ∀ x ∈ fs, ((g.attr x).lfn).isSome)
    (hinj : ∀ f1 ∈ fs, ∀ f2 ∈ fs, lfnD g f1 = lfnD g f2 → f1 = f2)
    (hndfs : fs.Nodup)
    (hsuccfs : ∀ t ∈ ts, ∀ x ∈ succs g t, x ∈ fs)
    (hlt4 : streamsOf (g.attr f) < 4)
    (hprod : streamsOf (g.attr f) ≠ 0 → ∃ t ∈ ts, f ∈ succs g t)
    (huniq1 : ∀ t ∈ ts, ∀ x1 ∈ succs g t, ∀ x2 ∈ succs g t,
      streamsOf (g.attr x1) &&& 1 ≠ 0 → streamsOf (g.attr x2) &&& 1 ≠ 0 → x1 = x2)
    (huniq2 : ∀ t ∈ ts, ∀ x1 ∈ succs g t, ∀ x2 ∈ succs g t,
      streamsOf (g.attr x1) &&& 2 ≠ 0 → streamsOf (g.attr x2) &&& 2 ≠ 0 → x1 = x2) :
    ((((allUpdates g fs ts).filter
        (fun q => q.1 == fs.indexOf f)).map Prod.snd).foldl
      (fun s c => s ||| c) 0) = streamsOf (g.attr f) := by
  have hcode_mem : ∀ c, c ∈ ((allUpdates g fs ts).filter
      (fun q => q.1 == fs.indexOf f)).map Prod.snd ↔
      (fs.indexOf f, c) ∈ allUpdates g fs ts := by
    intro c
    simp only [List.mem_map, List.mem_filter, beq_iff_eq]
    constructor
    · rintro ⟨⟨qu, qc⟩, ⟨hmem, hq1⟩, hq2⟩
      simp only at hq1 hq2
      subst hq1
      subst hq2
      exact hmem
    · intro h
      exact ⟨(fs.indexOf f, c), ⟨h, rfl⟩, rfl⟩
  have hcodes12 : ∀ c ∈ ((allUpdates g fs ts).filter
      (fun q => q.1 == fs.indexOf f)).map Prod.snd, c = 1 ∨ c = 2 := by
    intro c hc
    rw [hcode_mem] at hc
    obtain ⟨t, ht, hq⟩ := (mem_allUpdates g fs _ ts).mp hc
    exact mem_jobUpdates_snd g fs t _ hq
  obtain ⟨hlt, hb1, hb2⟩ := foldl_or_bits _ 0 (by decide) hcodes12
  have hbit : ∀ code, code = 1 ∨ code = 2 →
      (∀ t ∈ ts, ∀ x1 ∈ succs g t, ∀ x2 ∈ succs g t,
        streamsOf (g.attr x1) &&& code ≠ 0 →
        streamsOf (g.attr x2) &&& code ≠ 0 → x1 = x2) →
      ((fs.indexOf f, code) ∈ allUpdates g fs ts ↔
        streamsOf (g.attr f) &&& code ≠ 0) := by
    intro code hcode huniq
    rw [mem_allUpdates]
    constructor
    · rintro ⟨t, ht, hq⟩
      rw [mem_jobUpdates_code g fs t _ code hcode] at hq
      obtain ⟨l, hls, hm⟩ := hq
      obtain ⟨f1, hf1s, hflag1, hlfn1⟩ := lastStreamRef_some_inv g t code l hls
      obtain ⟨f2, hf2fs, hlfn2, hidx⟩ := mappingOf_some_inv g fs hndfs l _ hm
      have hf1fs : f1 ∈ fs := hsuccfs t ht f1 hf1s
      have hlfn1D : lfnD g f1 = l := by simp [lfnD, hlfn1]
      have h12 : f1 = f2 := hinj f1 hf1fs f2 hf2fs (by rw [hlfn1D, hlfn2])
      have hf2f : f2 = f := indexOf_inj fs f2 f hf2fs hf (by omega)
      rw [← hf2f, ← h12]
      exact hflag1
    · intro hflag
      obtain ⟨t, ht, hfs⟩ := hprod (by
        rcases hcode with rfl | rfl
        · exact and_one_ne_zero_imp hflag
        · exact and_two_ne_zero_imp hflag)
      refine ⟨t, ht, ?_⟩
      rw [mem_jobUpdates_code g fs t _ code hcode]
      refine ⟨lfnD g f, ?_, mappingOf_catalog g fs hinj hndfs f hf⟩
      rw [lastStreamRef_eq g t code f hfs hflag
        (fun x hx hxflag => huniq t ht x hx f hfs hxflag hflag)]
      obtain ⟨l, hl⟩ := Option.isSome_iff_exists.mp (hsome f hf)
      simp [lfnD, hl]
  apply bits_ext _ _ hlt hlt4
  · rw [hb1]
    rw [hcode_mem 1, hbit 1 (Or.inl rfl) huniq1]
    simp
  · rw [hb2]
    rw [hcode_mem 2, hbit 2 (Or.inr rfl) huniq2]
    simp

/-! ## Attribute reconstruction -/

lemma mem_pfnsOf_free (a : Attrs) :
    ∀ q ∈ pfnsOf a, ',' ∉ q.1.data ∧ ',' ∉ q.2.data := by
  intro q hq
  unfold pfnsOf at hq
  rcases hu : a.urls with _ | u
  · rw [hu] at hq; cases hq
  · rw [hu] at hq
    obtain ⟨h1, h2⟩ := List.of_mem_zip hq
    exact ⟨mem_splitCommaStr_free u q.1 h1, mem_splitCommaStr_free _ q.2 h2⟩

lemma splitCommaStr_ne_nil (s : String) : splitCommaStr s ≠ [] := by
  unfold splitCommaStr
  intro h
  exact splitOnChar_ne_nil ',' s.data (by simpa using h)

lemma pfnsOf_ne_nil_of_urls (a : Attrs) (u : String) (hu : a.urls = some u) :
    pfnsOf a ≠ [] := by
  unfold pfnsOf
  rw [hu]
  dsimp only
  rcases h1 : splitCommaStr u with _ | ⟨x, xs⟩
  · exact absurd h1 (splitCommaStr_ne_nil u)
  · rcases h2 : splitCommaStr (match a.sites with
        | some s => s
        | none => joinCommaStr (List.replicate u.length "local")) with _ | ⟨y, ys⟩
    · exact absurd h2 (splitCommaStr_ne_nil _)
    · simp

lemma pfnsOf_fileAttrsOf (df : DFile)
    (hfree : ∀ q ∈ df.pfns, ',' ∉ q.1.data ∧ ',' ∉ q.2.data) :
    pfnsOf (fileAttrsOf df) = df.pfns := by
  by_cases h : df.pfns = []
  · unfold fileAttrsOf
    rw [if_pos h, h]
    rfl
  · unfold fileAttrsOf
    rw [if_neg h]
    unfold pfnsOf
    dsimp only
    rw [splitCommaStr_join (df.pfns.map Prod.fst) (by simpa using h) ?_]
    · rw [splitCommaStr_join (df.pfns.map Prod.snd) (by simpa using h) ?_]
      · rw [List.zip_map']
        simp
      · intro p hp
        rw [List.mem_map] at hp
        obtain ⟨q, hq, rfl⟩ := hp
        exact (hfree q hq).2
    · intro p hp
      rw [List.mem_map] at hp
      obtain ⟨q, hq, rfl⟩ := hp
      exact (hfree q hq).1

lemma fileAttrsOf_lfn (df : DFile) : (fileAttrsOf df).lfn = some df.name := by
  unfold fileAttrsOf
  split <;> rfl

lemma fileAttrsOf_name (df : DFile) : (fileAttrsOf df).name = none := by
  unfold fileAttrsOf
  split <;> rfl

lemma fileAttrsOf_args (df : DFile) : (fileAttrsOf df).args = none := by
  unfold fileAttrsOf
  split <;> rfl

lemma fileAttrsOf_streams (df : DFile) : (fileAttrsOf df).streams = none := by
  unfold fileAttrsOf
  split <;> rfl

lemma tokensOf_taskAttrsOf (g : Graph) (t : Nat) :
    tokensOf (taskAttrsOf g t) = tokensOf (g.attr t) := by
  unfold taskAttrsOf
  by_cases h : tokensOf (g.attr t) = []
  · rw [if_pos h, h]
    rfl
  · rw [if_neg h]
    show splitWsStr (joinSpStr (tokensOf (g.attr t))) = _
    rw [splitWsStr_join (tokensOf (g.attr t))
      (splitWsStr_sound ((g.attr t).args.getD ""))]

/-! ## Looking nodes up in the reconstructed graph -/

lemma lookup_nodup_mem :
    ∀ (ns : List (Nat × Attrs)) (k : Nat) (a : Attrs),
      (ns.map Prod.fst).Nodup → (k, a) ∈ ns → ns.lookup k = some a := by
  intro ns
  induction ns with
  | nil => intro k a _ h; cases h
  | cons p ns ih =>
    intro k a hnd hmem
    obtain ⟨k', a'⟩ := p
    simp only [List.map_cons, List.nodup_cons] at hnd
    rcases List.mem_cons.mp hmem with heq | hmem'
    · injection heq with h1 h2
      subst h1
      subst h2
      simp [List.lookup]
    · have hk : k ≠ k' := by
        intro hcontra
        subst hcontra
        exact hnd.1 (List.mem_map_of_mem Prod.fst hmem')
      have hkk : (k == k') = false := by simpa using hk
      rw [List.lookup, hkk]
      exact ih k a hnd.2 hmem'

lemma allTaskNodes_fst (g : Graph) :
    ∀ (ts' : List Nat) (n : Nat),
      (allTaskNodes g n ts').map Prod.fst = List.range' n ts'.length := by
  intro ts'
  induction ts' with
  | nil => intro n; rfl
  | cons t ts ih =>
    intro n
    show n :: (allTaskNodes g (n + 1) ts).map Prod.fst = _
    rw [ih (n + 1)]
    rfl

lemma allTaskNodes_mem (g : Graph) :
    ∀ (ts' : List Nat) (n j : Nat) (hj : j < ts'.length),
      (n + j, taskAttrsOf g ts'[j]) ∈ allTaskNodes g n ts' := by
  intro ts'
  induction ts' with
  | nil => intro n j hj; cases hj
  | cons t ts ih =>
    intro n j hj
    cases j with
    | zero =>
      show (n + 0, taskAttrsOf g t) ∈ (n, taskAttrsOf g t) :: allTaskNodes g (n + 1) ts
      rw [Nat.add_zero]
      exact List.mem_cons_self _ _
    | succ j' =>
      show (n + (j' + 1), _) ∈ (n, taskAttrsOf g t) :: allTaskNodes g (n + 1) ts
      apply List.mem_cons_of_mem
      have := ih (n + 1) j' (by simpa using Nat.lt_of_succ_lt_succ hj)
      rw [show n + (j' + 1) = (n + 1) + j' by omega]
      exact this

lemma roundTripGraph_ids (g : Graph) (fs ts : List Nat) :
    (roundTripGraph g fs ts).ids =
      List.range fs.length ++ List.range' fs.length ts.length := by
  unfold roundTripGraph Graph.ids
  rw [List.map_append, applyUpdates_fst, List.map_map]
  rw [show (Prod.fst ∘ fun p : Nat × DFile => (p.1, fileAttrsOf p.2)) = Prod.fst
    from rfl]
  rw [List.enum_map_fst, allTaskNodes_fst]
  rw [show (catalogOf g fs).length = fs.length from by simp [catalogOf]]

/-! ## The isomorphism map -/

lemma isoMap_file (fs ts : List Nat) (f : Nat) (hf : f ∈ fs) :
    isoMap fs ts f = fs.indexOf f := by
  unfold isoMap
  rw [if_pos hf]

lemma isoMap_task (fs ts : List Nat) (t : Nat) (ht : t ∈ ts) (hnf : t ∉ fs) :
    isoMap fs ts t = fs.length + ts.indexOf t := by
  unfold isoMap
  rw [if_neg hnf]

lemma isoMap_inj (fs ts : List Nat) (hdisj : ∀ x ∈ fs, x ∉ ts)
    (x y : Nat) (hx : x ∈ fs ∨ x ∈ ts) (hy : y ∈ fs ∨ y ∈ ts)
    (h : isoMap fs ts x = isoMap fs ts y) : x = y := by
  unfold isoMap at h
  rcases hx with hx | hx <;> rcases hy with hy | hy
  · rw [if_pos hx, if_pos hy] at h
    exact indexOf_inj fs x y hx hy h
  · rw [if_pos hx, if_neg (fun hyf => hdisj y hyf hy)] at h
    have h1 : fs.indexOf x < fs.length := List.indexOf_lt_length.mpr hx
    omega
  · rw [if_neg (fun hxf => hdisj x hxf hx), if_pos hy] at h
    have h1 : fs.indexOf y < fs.length := List.indexOf_lt_length.mpr hy
    omega
  · rw [if_neg (fun hxf => hdisj x hxf hx),
      if_neg (fun hyf => hdisj y hyf hy)] at h
    exact indexOf_inj ts x y hx hy (by omega)

lemma map_isoMap_fs (fs ts : List Nat) (hnd : fs.Nodup) :
    fs.map (isoMap fs ts) = List.range fs.length := by
  apply List.ext_getElem
  · simp
  · intro i h1 h2
    rw [List.getElem_map, List.getElem_range]
    have h1b : i < fs.length := by simpa using h1
    rw [isoMap_file fs ts _ (List.getElem_mem h1b)]
    have hlt : fs.indexOf fs[i] < fs.length :=
      List.indexOf_lt_length.mpr (List.getElem_mem _)
    have := List.getElem_indexOf hlt
    exact (List.Nodup.getElem_inj_iff hnd).mp this

lemma map_isoMap_ts (fs ts : List Nat) (hnd : ts.Nodup)
    (hdisj : ∀ x ∈ fs, x ∉ ts) :
    ts.map (isoMap fs ts) = List.range' fs.length ts.length := by
  apply List.ext_getElem
  · simp
  · intro i h1 h2
    rw [List.getElem_map, List.getElem_range']
    have h1b : i < ts.length := by simpa using h1
    have hmem : ts[i] ∈ ts := List.getElem_mem _
    rw [isoMap_task fs ts _ hmem (fun hf => hdisj _ hf hmem)]
    have hlt : ts.indexOf ts[i] < ts.length :=
      List.indexOf_lt_length.mpr hmem
    have := List.getElem_indexOf hlt
    have hidx := (List.Nodup.getElem_inj_iff hnd).mp this
    omega

lemma roundTripGraph_keys_nodup (g : Graph) (fs ts : List Nat) :
    ((roundTripGraph g fs ts).nodes.map Prod.fst).Nodup := by
  rw [show (roundTripGraph g fs ts).nodes.map Prod.fst =
    (roundTripGraph g fs ts).ids from rfl]
  rw [roundTripGraph_ids]
  rw [List.nodup_append]
  refine ⟨List.nodup_range _, List.nodup_range' _ _ 1 (by omega), ?_⟩
  intro x hx1 hx2
  rw [List.mem_range] at hx1
  rw [List.mem_range'_1] at hx2
  omega

/-- The attribute dictionary of a reconstructed file node. -/
lemma roundTrip_attr_file_eq (g : Graph) (fs ts : List Nat) (f : Nat)
    (hf : f ∈ fs) :
    (roundTripGraph g fs ts).attr (fs.indexOf f) =
      applyCodes (fileAttrsOf { name := lfnD g f, pfns := pfnsOf (g.attr f) })
        (((allUpdates g fs ts).filter
          (fun q => q.1 == fs.indexOf f)).map Prod.snd) := by
  have hilen : fs.indexOf f < fs.length := List.indexOf_lt_length.mpr hf
  have hfsi : fs[fs.indexOf f] = f := List.getElem_indexOf hilen
  have hclen : fs.indexOf f < (catalogOf g fs).length := by
    simpa [catalogOf] using hilen
  have helen : fs.indexOf f < (catalogOf g fs).enum.length := by
    simpa using hclen
  have hmlen : fs.indexOf f < ((catalogOf g fs).enum.map
      (fun p => (p.1, fileAttrsOf p.2))).length := by simpa using helen
  have hcat_i : (catalogOf g fs)[fs.indexOf f] =
      ({ name := lfnD g f, pfns := pfnsOf (g.attr f) } : DFile) := by
    simp [catalogOf, hfsi]
  have hinit : ((catalogOf g fs).enum.map
      (fun p => (p.1, fileAttrsOf p.2)))[fs.indexOf f] =
      (fs.indexOf f,
        fileAttrsOf ({ name := lfnD g f, pfns := pfnsOf (g.attr f) } : DFile)) := by
    rw [List.getElem_map, List.getElem_enum, hcat_i]
  have hmem : (fs.indexOf f,
      applyCodes (fileAttrsOf ({ name := lfnD g f, pfns := pfnsOf (g.attr f) } : DFile))
        (((allUpdates g fs ts).filter
          (fun q => q.1 == fs.indexOf f)).map Prod.snd)) ∈
      applyUpdates (allUpdates g fs ts)
        ((catalogOf g fs).enum.map (fun p => (p.1, fileAttrsOf p.2))) := by
    rw [applyUpdates_map_eq]
    rw [List.mem_map]
    refine ⟨(fs.indexOf f,
      fileAttrsOf ({ name := lfnD g f, pfns := pfnsOf (g.attr f) } : DFile)), ?_, rfl⟩
    rw [← hinit]
    exact List.getElem_mem _
  unfold Graph.attr
  rw [lookup_nodup_mem (roundTripGraph g fs ts).nodes (fs.indexOf f) _
    (roundTripGraph_keys_nodup g fs ts) (List.mem_append_left _ hmem)]
  rfl

/-- The attribute dictionary of a reconstructed task node. -/
lemma roundTrip_attr_task_eq (g : Graph) (fs ts : List Nat) (t : Nat)
    (ht : t ∈ ts) :
    (roundTripGraph g fs ts).attr (fs.length + ts.indexOf t) =
      taskAttrsOf g t := by
  have hjlen : ts.indexOf t < ts.length := List.indexOf_lt_length.mpr ht
  have htsj : ts[ts.indexOf t] = t := List.getElem_indexOf hjlen
  have hmem : (fs.length + ts.indexOf t, taskAttrsOf g t) ∈
      allTaskNodes g fs.length ts := by
    have := allTaskNodes_mem g ts fs.length (ts.indexOf t) hjlen
    rw [htsj] at this
    exact this
  unfold Graph.attr
  rw [lookup_nodup_mem (roundTripGraph g fs ts).nodes _ _
    (roundTripGraph_keys_nodup g fs ts) (List.mem_append_right _ hmem)]
  rfl

/-! ## Edge membership in the reconstruction -/

lemma mem_allEdges (g : Graph) (fs : List Nat) (e : Nat × Nat) :
    ∀ (ts' : List Nat) (n : Nat),
      (e ∈ allEdges g fs n ts' ↔
        ∃ j, ∃ hj : j < ts'.length, e ∈ jobEdges g fs (n + j) ts'[j]) := by
  intro ts'
  induction ts' with
  | nil =>
    intro n
    simp [allEdges]
  | cons t ts ih =>
    intro n
    show e ∈ jobEdges g fs n t ++ allEdges g fs (n + 1) ts ↔ _
    rw [List.mem_append, ih (n + 1)]
    constructor
    · rintro (h | ⟨j, hj, h⟩)
      · exact ⟨0, by simp, by simpa using h⟩
      · refine ⟨j + 1, by simpa using hj, ?_⟩
        rw [show n + (j + 1) = (n + 1) + j from by omega]
        simpa using h
    · rintro ⟨j, hj, h⟩
      cases j with
      | zero => exact Or.inl (by simpa using h)
      | succ j' =>
        refine Or.inr ⟨j', by simpa using hj, ?_⟩
        rw [show (n + 1) + j' = n + (j' + 1) from by omega]
        simpa using h

lemma mem_jobEdges (g : Graph) (fs : List Nat) (t v : Nat) (e : Nat × Nat)
    (hndfs : fs.Nodup)
    (hsome : ∀ x ∈ fs, ((g.attr x).lfn).isSome)
    (hinjD : ∀ f1 ∈ fs, ∀ f2 ∈ fs, lfnD g f1 = lfnD g f2 → f1 = f2)
    (hsuccfs : ∀ x ∈ succs g t, x ∈ fs) :
    e ∈ jobEdges g fs v t ↔
      (∃ f ∈ preds g t, e = (fs.indexOf f, v)) ∨
      (∃ f ∈ succs g t, e = (v, fs.indexOf f)) := by
  unfold jobEdges
  simp only [List.mem_append, List.mem_map]
  constructor
  · rintro ((⟨f, hf, rfl⟩ | ⟨f, hf, rfl⟩) | ⟨q, hq, rfl⟩)
    · exact Or.inl ⟨f, hf, rfl⟩
    · exact Or.inr ⟨f, hf, rfl⟩
    · rcases mem_jobUpdates_snd g fs t q hq with hc | hc <;>
      · obtain ⟨u, c⟩ := q
        simp only at hc
        subst hc
        rw [mem_jobUpdates_code g fs t u _ (by simp)] at hq
        obtain ⟨l, hls, hm⟩ := hq
        obtain ⟨f1, hf1s, _, hlfn1⟩ := lastStreamRef_some_inv g t _ l hls
        obtain ⟨f2, hf2fs, hlfn2, rfl⟩ := mappingOf_some_inv g fs hndfs l _ hm
        have hf1fs : f1 ∈ fs := hsuccfs f1 hf1s
        have h12 : f1 = f2 := hinjD f1 hf1fs f2 hf2fs
          (by rw [show lfnD g f1 = l from by simp [lfnD, hlfn1], hlfn2])
        exact Or.inr ⟨f1, hf1s, by rw [h12]⟩
  · rintro (⟨f, hf, rfl⟩ | ⟨f, hf, rfl⟩)
    · exact Or.inl (Or.inl ⟨f, hf, rfl⟩)
    · exact Or.inl (Or.inr ⟨f, hf, rfl⟩)

/-- The round-trip isomorphism, assembled. -/
lemma roundTrip_main (g : Graph) (fs ts : List Nat) (nm : String)
    (hperm : (fs ++ ts).Perm g.ids)
    (hndids : g.ids.Nodup)
    (hcross : ∀ e ∈ g.edges, (e.1 ∈ fs ∧ e.2 ∈ ts) ∨ (e.1 ∈ ts ∧ e.2 ∈ fs))
    (hfile : ∀ f ∈ fs, FileSchema (g.attr f))
    (htask : ∀ t ∈ ts, TaskSchema (g.attr t))
    (hinj : ∀ f1 ∈ fs, ∀ f2 ∈ fs, (g.attr f1).lfn = (g.attr f2).lfn → f1 = f2)
    (hfree : ∀ t ∈ ts, ∀ tok ∈ tokensOf (g.attr t), ∀ f ∈ fs,
      (g.attr f).lfn ≠ some tok)
    (hprod : ∀ f ∈ fs, streamsOf (g.attr f) ≠ 0 → ∃ t ∈ ts, (t, f) ∈ g.edges)
    (huniq1 : ∀ t ∈ ts, ∀ f1 f2 : Nat, (t, f1) ∈ g.edges → (t, f2) ∈ g.edges →
      streamsOf (g.attr f1) &&& 1 ≠ 0 → streamsOf (g.attr f2) &&& 1 ≠ 0 → f1 = f2)
    (huniq2 : ∀ t ∈ ts, ∀ f1 f2 : Nat, (t, f1) ∈ g.edges → (t, f2) ∈ g.edges →
      streamsOf (g.attr f1) &&& 2 ≠ 0 → streamsOf (g.attr f2) &&& 2 ≠ 0 → f1 = f2) :
    (writeDax g fs ts nm).bind parseDax = .ok (roundTripGraph g fs ts) ∧
      GraphIso g (roundTripGraph g fs ts) (isoMap fs ts) := by
  have hndboth : (fs ++ ts).Nodup := hperm.nodup_iff.mpr hndids
  obtain ⟨hndfs, hndts, hdisj⟩ := List.nodup_append.mp hndboth
  have hdisjF : ∀ x ∈ fs, x ∉ ts := fun x hx hxt => hdisj hx hxt
  have hidsmem : ∀ v ∈ g.ids, v ∈ fs ∨ v ∈ ts := by
    intro v hv
    exact List.mem_append.mp (hperm.mem_iff.mpr hv)
  have hsome : ∀ f ∈ fs, ((g.attr f).lfn).isSome := fun f hf => (hfile f hf).1
  have hinjD : ∀ f1 ∈ fs, ∀ f2 ∈ fs, lfnD g f1 = lfnD g f2 → f1 = f2 := by
    intro f1 h1 f2 h2 heq
    obtain ⟨l1, hl1⟩ := Option.isSome_iff_exists.mp (hsome f1 h1)
    obtain ⟨l2, hl2⟩ := Option.isSome_iff_exists.mp (hsome f2 h2)
    apply hinj f1 h1 f2 h2
    rw [hl1, hl2]
    simp only [lfnD, hl1, hl2, Option.getD_some] at heq
    rw [heq]
  have hpredfs : ∀ t ∈ ts, ∀ f ∈ preds g t, f ∈ fs := by
    intro t ht f hf
    rcases hcross (f, t) (mem_preds.mp hf) with ⟨h1, _⟩ | ⟨_, h2⟩
    · exact h1
    · exact (hdisj h2 ht).elim
  have hsuccfs : ∀ t ∈ ts, ∀ f ∈ succs g t, f ∈ fs := by
    intro t ht f hf
    rcases hcross (t, f) (mem_succs.mp hf) with ⟨h1, _⟩ | ⟨_, h2⟩
    · exact (hdisj h1 ht).elim
    · exact h2
  have hfreeN : ∀ t ∈ ts, ∀ tok ∈ tokensOf (g.attr t), tok ∉ fs.map (lfnD g) := by
    intro t ht tok htok hmem
    rw [List.mem_map] at hmem
    obtain ⟨f, hffs, hlfnD⟩ := hmem
    obtain ⟨l, hl⟩ := Option.isSome_iff_exists.mp (hsome f hffs)
    refine hfree t ht tok htok f hffs ?_
    rw [hl]
    simp only [lfnD, hl, Option.getD_some] at hlfnD
    rw [hlfnD]
  have hparts : ∀ t ∈ ts, ∀ p ∈ parentsOf g t, p ∈ ts := by
    intro t ht p hp
    obtain ⟨f, hpf, hft⟩ := mem_parentsOf.mp hp
    have hffs : f ∈ fs := hpredfs t ht f (mem_preds.mpr hft)
    rcases hcross (p, f) hpf with ⟨_, h2⟩ | ⟨h1, _⟩
    · exact (hdisj hffs h2).elim
    · exact h1
  have hwrite := writeDax_ok g fs ts nm hsome hinjD hndfs
    (fun t ht => (htask t ht).1) hfreeN hpredfs hsuccfs hparts
  have hcond : ∀ t ∈ ts,
      (∀ f ∈ preds g t,
        mappingOf (catalogOf g fs) (lfnD g f) = some (fs.indexOf f)) ∧
      (∀ f ∈ succs g t,
        mappingOf (catalogOf g fs) (lfnD g f) = some (fs.indexOf f)) ∧
      (∀ l, lastStreamRef g t 1 = some l →
        (mappingOf (catalogOf g fs) l).isSome) ∧
      (∀ l, lastStreamRef g t 2 = some l →
        (mappingOf (catalogOf g fs) l).isSome) := by
    intro t ht
    refine ⟨?_, ?_, ?_, ?_⟩
    · intro f hf
      exact mappingOf_catalog g fs hinjD hndfs f (hpredfs t ht f hf)
    · intro f hf
      exact mappingOf_catalog g fs hinjD hndfs f (hsuccfs t ht f hf)
    · intro l hls
      obtain ⟨f1, hf1s, _, hlfn1⟩ := lastStreamRef_some_inv g t 1 l hls
      have hf1fs := hsuccfs t ht f1 hf1s
      rw [show l = lfnD g f1 from by simp [lfnD, hlfn1]]
      rw [mappingOf_catalog g fs hinjD hndfs f1 hf1fs]
      rfl
    · intro l hls
      obtain ⟨f1, hf1s, _, hlfn1⟩ := lastStreamRef_some_inv g t 2 l hls
      have hf1fs := hsuccfs t ht f1 hf1s
      rw [show l = lfnD g f1 from by simp [lfnD, hlfn1]]
      rw [mappingOf_catalog g fs hinjD hndfs f1 hf1fs]
      rfl
  have hparse := parseDax_ok g fs ts nm hcond
  refine ⟨?_, ?_, ?_, ?_⟩
  · rw [hwrite]
    exact hparse
  · rw [roundTripGraph_ids]
    have h2 : (fs ++ ts).map (isoMap fs ts) =
        List.range fs.length ++ List.range' fs.length ts.length := by
      rw [List.map_append, map_isoMap_fs fs ts hndfs,
        map_isoMap_ts fs ts hndts hdisjF]
    have h1 := hperm.map (isoMap fs ts)
    rw [h2] at h1
    exact h1.symm
  · intro v hv
    rcases hidsmem v hv with hvf | hvt
    · rw [isoMap_file fs ts v hvf, roundTrip_attr_file_eq g fs ts v hvf]
      obtain ⟨l, hl⟩ := Option.isSome_iff_exists.mp (hsome v hvf)
      refine ⟨?_, ?_, ?_, ?_, ?_⟩
      · rw [applyCodes_lfn, fileAttrsOf_lfn]
        simp [lfnD, hl]
      · rw [applyCodes_name, fileAttrsOf_name]
        exact (hfile v hvf).2.1
      · unfold tokensOf
        rw [applyCodes_args, fileAttrsOf_args, (hfile v hvf).2.2.1]
      · rw [pfnsOf_congr (applyCodes _ _) (fileAttrsOf _)
          (applyCodes_urls _ _) (applyCodes_sites _ _)]
        rw [pfnsOf_fileAttrsOf _ (mem_pfnsOf_free (g.attr v))]
      · rw [streamsOf_applyCodes]
        rw [show streamsOf (fileAttrsOf
          ({ name := lfnD g v, pfns := pfnsOf (g.attr v) } : DFile)) = 0 from by
            unfold streamsOf
            rw [fileAttrsOf_streams]
            rfl]
        refine (streams_roundtrip g fs ts v hvf hsome hinjD hndfs hsuccfs
          (hfile v hvf).2.2.2 ?_ ?_ ?_).symm
        · intro hs0
          obtain ⟨t, ht, he⟩ := hprod v hvf hs0
          exact ⟨t, ht, mem_succs.mpr he⟩
        · intro t ht x1 hx1 x2 hx2 hb1 hb2
          exact huniq1 t ht x1 x2 (mem_succs.mp hx1) (mem_succs.mp hx2) hb1 hb2
        · intro t ht x1 hx1 x2 hx2 hb1 hb2
          exact huniq2 t ht x1 x2 (mem_succs.mp hx1) (mem_succs.mp hx2) hb1 hb2
    · have hvnf : v ∉ fs := fun hvf => hdisj hvf hvt
      rw [isoMap_task fs ts v hvt hvnf, roundTrip_attr_task_eq g fs ts v hvt]
      obtain ⟨nm', hnm'⟩ := Option.isSome_iff_exists.mp (htask v hvt).1
      refine ⟨?_, ?_, ?_, ?_, ?_⟩
      · rw [(htask v hvt).2.1]
        rfl
      · rw [hnm']
        show _ = (taskAttrsOf g v).name
        unfold taskAttrsOf
        simp [nameD, hnm']
      · exact (tokensOf_taskAttrsOf g v).symm
      · unfold pfnsOf
        rw [(htask v hvt).2.2.1]
        rfl
      · unfold streamsOf
        rw [(htask v hvt).2.2.2.2]
        rfl
  · intro u0 hu0 v0 hv0
    rw [show (roundTripGraph g fs ts).edges =
      (allEdges g fs fs.length ts).dedup from rfl]
    rw [List.mem_dedup, mem_allEdges]
    constructor
    · intro he
      rcases hcross (u0, v0) he with ⟨h1, h2⟩ | ⟨h1, h2⟩
      · have hjlt : ts.indexOf v0 < ts.length := List.indexOf_lt_length.mpr h2
        refine ⟨ts.indexOf v0, hjlt, ?_⟩
        rw [List.getElem_indexOf hjlt]
        rw [mem_jobEdges g fs v0 _ _ hndfs hsome hinjD
          (fun x hx => hsuccfs v0 h2 x hx)]
        refine Or.inl ⟨u0, mem_preds.mpr he, ?_⟩
        rw [isoMap_file fs ts u0 h1,
          isoMap_task fs ts v0 h2 (fun hvf => hdisj hvf h2)]
      · have hjlt : ts.indexOf u0 < ts.length := List.indexOf_lt_length.mpr h1
        refine ⟨ts.indexOf u0, hjlt, ?_⟩
        rw [List.getElem_indexOf hjlt]
        rw [mem_jobEdges g fs u0 _ _ hndfs hsome hinjD
          (fun x hx => hsuccfs u0 h1 x hx)]
        refine Or.inr ⟨v0, mem_succs.mpr he, ?_⟩
        rw [isoMap_task fs ts u0 h1 (fun huf => hdisj huf h1),
          isoMap_file fs ts v0 h2]
    · rintro ⟨j, hj, hmem⟩
      have httj : ts[j] ∈ ts := List.getElem_mem hj
      have hidxj : ts.indexOf ts[j] = j := by
        have hlt := List.indexOf_lt_length.mpr httj
        exact (List.Nodup.getElem_inj_iff hndts).mp (List.getElem_indexOf hlt)
      rw [mem_jobEdges g fs ts[j] _ _ hndfs hsome hinjD
        (fun x hx => hsuccfs _ httj x hx)] at hmem
      rcases hmem with ⟨f, hf, heq⟩ | ⟨f, hf, heq⟩
      · have hffs : f ∈ fs := hpredfs _ httj f hf
        injection heq with he1 he2
        have hu0f : u0 = f := by
          apply isoMap_inj fs ts hdisjF u0 f (hidsmem u0 hu0) (Or.inl hffs)
          rw [he1, isoMap_file fs ts f hffs]
        have hv0t : v0 = ts[j] := by
          apply isoMap_inj fs ts hdisjF v0 _ (hidsmem v0 hv0) (Or.inr httj)
          rw [he2, isoMap_task fs ts _ httj (fun hff => hdisj hff httj), hidxj]
        rw [hu0f, hv0t]
        exact mem_preds.mp hf
      · have hffs : f ∈ fs := hsuccfs _ httj f hf
        injection heq with he1 he2
        have hu0t : u0 = ts[j] := by
          apply isoMap_inj fs ts hdisjF u0 _ (hidsmem u0 hu0) (Or.inr httj)
          rw [he1, isoMap_task fs ts _ httj (fun hff => hdisj hff httj), hidxj]
        have hv0f : v0 = f := by
          apply isoMap_inj fs ts hdisjF v0 f (hidsmem v0 hv0) (Or.inl hffs)
          rw [he2, isoMap_file fs ts f hffs]
        rw [hu0t, hv0f]
        exact mem_succs.mp hf

/-- Association-list lookup over a graph-of-pairs built by mapping a function
over distinct-first keys: the key finds its own image. -/
lemma lookup_map_self {β : Type} (f : Nat → β) :
    ∀ (l : List Nat) (v : Nat), v ∈ l →
      (l.map (fun x => (x, f x))).lookup v = some (f v) := by
  intro l
  induction l with
  | nil => intro v hv; cases hv
  | cons x xs ih =>
    intro v hv
    show List.lookup v ((x, f x) :: xs.map (fun y => (y, f y))) = some (f v)
    cases hb : v == x
    · have hne : v ≠ x := by simpa using hb
      rcases List.mem_cons.mp hv with rfl | hvs
      · exact absurd rfl hne
      · rw [show List.lookup v ((x, f x) :: xs.map (fun y => (y, f y))) =
          List.lookup v (xs.map (fun y => (y, f y))) from by
            rw [List.lookup]
            rw [hb]]
        exact ih v hvs
    · have hvx : v = x := by simpa using hb
      subst hvx
      rw [show List.lookup v ((v, f v) :: xs.map (fun y => (y, f y))) =
        some (f v) from by
          rw [List.lookup]
          rw [hb]]

/-- Classification correctness: when both roles are inhabited, every edge
crosses between roles and every proper two-coloring separates the nodes
exactly by role, `_label` succeeds and tags a node `1` precisely when it
carries the `lfn` attribute. -/
lemma label_roles (g : Graph)
    (hne1 : filesOf g ≠ []) (hne2 : tasksOf g ≠ [])
    (hcross : ∀ e ∈ g.edges,
      (e.1 ∈ filesOf g ∧ e.2 ∈ tasksOf g) ∨
      (e.1 ∈ tasksOf g ∧ e.2 ∈ filesOf g))
    (hcol : ∀ m ∈ colorings g.ids, properOn g m = true →
      ∀ u ∈ g.ids, ∀ v ∈ g.ids,
        (m.lookup u = m.lookup v ↔
          (g.attr u).lfn.isSome = (g.attr v).lfn.isSome)) :
    ∃ tags, label g = .ok tags ∧
      ∀ v ∈ g.ids,
        tags.lookup v = some (if (g.attr v).lfn.isSome then 1 else 0) := by
  have hmem0 : g.ids.map (fun i => (i, (g.attr i).lfn.isSome)) ∈
      colorings g.ids := map_mem_colorings _ g.ids
  have hprop0 : properOn g
      (g.ids.map (fun i => (i, (g.attr i).lfn.isSome))) = true := by
    unfold properOn
    rw [List.all_eq_true]
    intro e he
    rcases hcross e he with ⟨h1, h2⟩ | ⟨h1, h2⟩
    · obtain ⟨h1i, h1p⟩ := List.mem_filter.mp h1
      obtain ⟨h2i, h2p⟩ := List.mem_filter.mp h2
      rw [lookup_map_self _ g.ids e.1 h1i, lookup_map_self _ g.ids e.2 h2i]
      have h2f : (g.attr e.2).lfn.isSome = false := by simpa using h2p
      rw [h1p, h2f]
      rfl
    · obtain ⟨h1i, h1p⟩ := List.mem_filter.mp h1
      obtain ⟨h2i, h2p⟩ := List.mem_filter.mp h2
      rw [lookup_map_self _ g.ids e.1 h1i, lookup_map_self _ g.ids e.2 h2i]
      have h1f : (g.attr e.1).lfn.isSome = false := by simpa using h1p
      rw [h1f, h2p]
      rfl
  obtain ⟨m, hm⟩ : ∃ m, (colorings g.ids).find? (properOn g) = some m := by
    rcases hf : (colorings g.ids).find? (properOn g) with _ | m
    · exact absurd hprop0 (List.find?_eq_none.mp hf _ hmem0)
    · exact ⟨m, rfl⟩
  have hm_mem : m ∈ colorings g.ids := List.mem_of_find?_eq_some hm
  have hm_prop : properOn g m = true := List.find?_some hm
  have hlook := mem_colorings_lookup g.ids m hm_mem
  obtain ⟨f0, hf0⟩ := List.exists_mem_of_ne_nil _ hne1
  obtain ⟨t0, ht0⟩ := List.exists_mem_of_ne_nil _ hne2
  obtain ⟨hf0i, hf0p⟩ := List.mem_filter.mp hf0
  obtain ⟨ht0i, ht0p⟩ := List.mem_filter.mp ht0
  have ht0f : (g.attr t0).lfn.isSome = false := by simpa using ht0p
  have hdiff : m.lookup f0 ≠ m.lookup t0 := by
    intro heq
    have hro := (hcol m hm_mem hm_prop f0 hf0i t0 ht0i).mp heq
    rw [hf0p, ht0f] at hro
    cases hro
  obtain ⟨bf, hbf⟩ := hlook f0 hf0i
  obtain ⟨bt, hbt⟩ := hlook t0 ht0i
  have hUne : ∃ w ∈ g.ids, m.lookup w = some true := by
    cases bf with
    | true => exact ⟨f0, hf0i, hbf⟩
    | false =>
      cases bt with
      | true => exact ⟨t0, ht0i, hbt⟩
      | false => exact absurd (hbf.trans hbt.symm) hdiff
  obtain ⟨w, hwi, hw⟩ := hUne
  have hbc : bipartiteColor g = .ok m := by
    unfold bipartiteColor
    rw [hm]
  have hwU : w ∈ g.ids.filter (fun v => m.lookup v == some true) :=
    List.mem_filter.mpr ⟨hwi, by rw [hw]; rfl⟩
  rcases hh : (g.ids.filter (fun v => m.lookup v == some true)).head? with _ | rep
  · exact absurd (List.head?_eq_none_iff.mp hh) (List.ne_nil_of_mem hwU)
  have hrepU : rep ∈ g.ids.filter (fun v => m.lookup v == some true) :=
    List.mem_of_mem_head? (by rw [hh]; rfl)
  obtain ⟨hrepi, hrepp⟩ := List.mem_filter.mp hrepU
  have hrepl : m.lookup rep = some true := by simpa using hrepp
  refine ⟨labelTags g
      (g.ids.filter (fun v => m.lookup v == some true))
      (g.ids.filter (fun v => m.lookup v == some false)) rep, ?_, ?_⟩
  · unfold label
    rw [hbc]
    simp only [ok_bind]
    rw [hh]
  · intro v hv
    simp only [labelTags]
    rw [lookup_map_self (fun u => if u ∈ (if (g.attr rep).lfn.isSome then
        g.ids.filter (fun x => m.lookup x == some true) else
        g.ids.filter (fun x => m.lookup x == some false)) then 1 else 0)
      g.ids v hv]
    congr 1
    have hvchar : v ∈ (if (g.attr rep).lfn.isSome then
        g.ids.filter (fun x => m.lookup x == some true) else
        g.ids.filter (fun x => m.lookup x == some false)) ↔
        (g.attr v).lfn.isSome = true := by
      by_cases hrep : (g.attr rep).lfn.isSome
      · rw [if_pos hrep]
        constructor
        · intro hvU
          have hvl : m.lookup v = some true := by
            simpa using (List.mem_filter.mp hvU).2
          have hro := (hcol m hm_mem hm_prop v hv rep hrepi).mp
            (by rw [hvl, hrepl])
          rw [hro]
          exact hrep
        · intro hvf
          apply List.mem_filter.mpr
          refine ⟨hv, ?_⟩
          have heq : m.lookup v = m.lookup rep :=
            (hcol m hm_mem hm_prop v hv rep hrepi).mpr (by rw [hvf, hrep])
          rw [heq, hrepl]
          rfl
      · rw [if_neg hrep]
        have hrepf : (g.attr rep).lfn.isSome = false := by simpa using hrep
        constructor
        · intro hvV
          have hvl : m.lookup v = some false := by
            simpa using (List.mem_filter.mp hvV).2
          have hne : m.lookup v ≠ m.lookup rep := by
            rw [hvl, hrepl]
            simp
          have hro : ¬((g.attr v).lfn.isSome = (g.attr rep).lfn.isSome) :=
            fun hco => hne ((hcol m hm_mem hm_prop v hv rep hrepi).mpr hco)
          rw [hrepf] at hro
          cases hbi : (g.attr v).lfn.isSome with
          | false => exact absurd hbi hro
          | true => rfl
        · intro hvf
          apply List.mem_filter.mpr
          refine ⟨hv, ?_⟩
          obtain ⟨bv, hbv⟩ := hlook v hv
          have hne : m.lookup v ≠ m.lookup rep := by
            intro heq
            have hro := (hcol m hm_mem hm_prop v hv rep hrepi).mp heq
            rw [hvf, hrepf] at hro
            cases hro
          rw [hbv] at hne ⊢
          rw [hrepl] at hne
          cases bv with
          | false => rfl
          | true => exact absurd rfl hne
    exact if_congr hvchar rfl rfl

/-! ## Claim theorems (C1 - C10) -/

/-- C1, counterexample: the graph `gEmbedded` lies in the claimed domain -- its
file nodes satisfy the supported file-attribute schema, its task node the
task schema, its node set splits into files `[0, 2]` and task `[1]` with all
edges crossing between the two roles -- yet serializing it and reverse-parsing
does not yield any graph: both the compile-and-emit stage alone (`writeDax`
then `parseDax`) and the full pipeline including classification
(`daxgenRoundTrip`) fail with the `ValueError` that `stringify` raises,
because the task's argument token `input.dat` equals a logical file name and
the reverse parser cannot re-render the resulting file reference outside a
`-C` option. So the unconditional round-trip property of the claim is
false. -/
theorem claim_C1_counterexample :
    (∀ f ∈ ([0, 2] : List Nat), FileSchema (gEmbedded.attr f)) ∧
    (∀ t ∈ ([1] : List Nat), TaskSchema (gEmbedded.attr t)) ∧
    (([0, 2] ++ [1] : List Nat).Perm gEmbedded.ids) ∧
    gEmbedded.ids.Nodup ∧
    (∀ e ∈ gEmbedded.edges,
      (e.1 ∈ ([0, 2] : List Nat) ∧ e.2 ∈ ([1] : List Nat)) ∨
      (e.1 ∈ ([1] : List Nat) ∧ e.2 ∈ ([0, 2] : List Nat))) ∧
    (writeDax gEmbedded [0, 2] [1] "dax").bind parseDax =
      .error DaxErr.valueError ∧
    daxgenRoundTrip gEmbedded "dax" = .error DaxErr.valueError := by
  decide

/-- C1 (amended): the full pipeline of the claim -- classification (`_label`
inside `__init__`), compilation and document emission (`write`), then the
reverse parse -- succeeds and yields a graph isomorphic to the original on
node attributes (logical names, executable names, argument tokens, physical
locations, stream flags) and on the edge set, via the id map `isoMap`, for
every graph satisfying: each node carries the supported file schema (when it
has `lfn`) or task schema (otherwise), both roles are inhabited, every edge
crosses between the roles, every proper two-coloring separates the nodes
exactly by role (so classification cannot mistag, e.g. any connected
role-split graph), distinct files have distinct logical names, no task
argument token equals a logical file name, every stream-flagged file has a
producing task, and per task at most one output is flagged stdout and at
most one stderr. -/
theorem claim_C1_amended (g : Graph) (nm : String)
    (hndids : g.ids.Nodup)
    (hcross : ∀ e ∈ g.edges,
      (e.1 ∈ filesOf g ∧ e.2 ∈ tasksOf g) ∨
      (e.1 ∈ tasksOf g ∧ e.2 ∈ filesOf g))
    (hfile : ∀ f ∈ filesOf g, FileSchema (g.attr f))
    (htask : ∀ t ∈ tasksOf g, TaskSchema (g.attr t))
    (hinj : ∀ f1 ∈ filesOf g, ∀ f2 ∈ filesOf g,
      (g.attr f1).lfn = (g.attr f2).lfn → f1 = f2)
    (hfree : ∀ t ∈ tasksOf g, ∀ tok ∈ tokensOf (g.attr t), ∀ f ∈ filesOf g,
      (g.attr f).lfn ≠ some tok)
    (hprod : ∀ f ∈ filesOf g, streamsOf (g.attr f) ≠ 0 →
      ∃ t ∈ tasksOf g, (t, f) ∈ g.edges)
    (huniq1 : ∀ t ∈ tasksOf g, ∀ f1 ∈ succs g t, ∀ f2 ∈ succs g t,
      streamsOf (g.attr f1) &&& 1 ≠ 0 → streamsOf (g.attr f2) &&& 1 ≠ 0 →
      f1 = f2)
    (huniq2 : ∀ t ∈ tasksOf g, ∀ f1 ∈ succs g t, ∀ f2 ∈ succs g t,
      streamsOf (g.attr f1) &&& 2 ≠ 0 → streamsOf (g.attr f2) &&& 2 ≠ 0 →
      f1 = f2)
    (hne1 : filesOf g ≠ []) (hne2 : tasksOf g ≠ [])
    (hcol : ∀ m ∈ colorings g.ids, properOn g m = true →
      ∀ u ∈ g.ids, ∀ v ∈ g.ids,
        (m.lookup u = m.lookup v ↔
          (g.attr u).lfn.isSome = (g.attr v).lfn.isSome)) :
    ∃ h, daxgenRoundTrip g nm = .ok h ∧
      GraphIso g h (isoMap (filesOf g) (tasksOf g)) := by
  obtain ⟨tags, hlab, htags⟩ := label_roles g hne1 hne2 hcross hcol
  have hfs : g.ids.filter (fun v => tags.lookup v == some 1) = filesOf g := by
    unfold filesOf
    apply List.filter_congr
    intro v hv
    rw [htags v hv]
    cases hb : (g.attr v).lfn.isSome <;> simp [hb]
  have hts : g.ids.filter (fun v => tags.lookup v == some 0) = tasksOf g := by
    unfold tasksOf
    apply List.filter_congr
    intro v hv
    rw [htags v hv]
    cases hb : (g.attr v).lfn.isSome <;> simp [hb]
  have hidsne : g.ids ≠ [] := by
    obtain ⟨f0, hf0⟩ := List.exists_mem_of_ne_nil _ hne1
    exact List.ne_nil_of_mem (List.mem_filter.mp hf0).1
  have hnodesne : g.nodes.isEmpty = false := by
    rcases hn : g.nodes with _ | ⟨p, ps⟩
    · exact absurd (by
        rw [show g.ids = g.nodes.map Prod.fst from rfl, hn]
        rfl) hidsne
    · rfl
  have hinit : initDaxgen g = .ok
      { graph := g, files := some (filesOf g), tasks := some (tasksOf g) } := by
    unfold initDaxgen
    rw [if_neg (by rw [hnodesne]; simp)]
    rw [hlab]
    simp only [ok_bind]
    rw [hfs, hts]
  have hmain := roundTrip_main g (filesOf g) (tasksOf g) nm
    (List.filter_append_perm (fun v => (g.attr v).lfn.isSome) g.ids)
    hndids hcross hfile htask hinj hfree hprod
    (fun t ht f1 f2 he1 he2 hb1 hb2 =>
      huniq1 t ht f1 (mem_succs.mpr he1) f2 (mem_succs.mpr he2) hb1 hb2)
    (fun t ht f1 f2 he1 he2 hb1 hb2 =>
      huniq2 t ht f1 (mem_succs.mpr he1) f2 (mem_succs.mpr he2) hb1 hb2)
  refine ⟨roundTripGraph g (filesOf g) (tasksOf g), ?_, hmain.2⟩
  unfold daxgenRoundTrip
  rw [hinit]
  exact hmain.1

/-- C1, witness: the amended full-pipeline round-trip theorem applied to the
spec's concrete scenario graph `gScenario` (files `input`, `output`;
one task). -/
theorem claim_C1_witness :
    ∃ h, daxgenRoundTrip gScenario "valid" = .ok h ∧
      GraphIso gScenario h (isoMap (filesOf gScenario) (tasksOf gScenario)) :=
  claim_C1_amended gScenario "valid" (by decide) (by decide) (by decide)
    (by decide) (by decide) (by decide) (by decide) (by decide) (by decide)
    (by decide) (by decide) (by decide)

/-! ## Claim theorems (C2 - C10) -/

/-- Claim C2, counterexample: the claim says every position whose token
matches a logical name is replaced, but with `input.dat` occurring twice the
compiled vector replaces only the first occurrence (`args.index` returns the
first index) and leaves the second one a literal string. -/
theorem claim_C2_counterexample :
    substArgs ["input.dat"] ["input.dat", "input.dat"] =
      [Arg.file "input.dat", Arg.lit "input.dat"] := by decide

/-- Claim C2, amended: in the compiled argument vector a position holds a
file reference exactly when its token is a known logical name *and* the
position is the first occurrence of that token; every other position keeps
its literal token. -/
theorem claim_C2_amended (cat toks : List String) (j : Nat) (hj : j < toks.length)
    (hj2 : j < (substArgs cat toks).length) :
    (substArgs cat toks)[j] =
      if toks[j] ∈ cat ∧ toks.indexOf toks[j] = j then Arg.file toks[j]
      else Arg.lit toks[j] :=
  substArgs_getElem cat toks j hj hj2

/-- Witness for claim C2: on the spec's own example the third token is the
unique match and is replaced by the file reference. -/
theorem claim_C2_witness :
    (substArgs ["input.dat"] ["--opt", "val", "input.dat"])[2]? =
      some (Arg.file "input.dat") := by
  rw [List.getElem?_eq_getElem (by decide)]
  rw [claim_C2_amended ["input.dat"] ["--opt", "val", "input.dat"] 2 (by decide)
    (by decide)]
  decide

/-- Claim C4: on a well-formed graph admitting no proper two-coloring,
`_label` fails with the structure error (`ValueError("Graph is not
bipartite.")`) and produces no role tagging. -/
theorem claim_C4 (g : Graph) (hwf : WellFormed g)
    (hnc : ¬ ∃ c : Nat → Bool, IsProperColoring g c) :
    label g = .error .structureError := by
  have hfind : (colorings g.ids).find? (properOn g) = none := by
    rcases hf : (colorings g.ids).find? (properOn g) with _ | m
    · rfl
    · exact absurd ⟨_, properColoring_of_find g m hf hwf⟩ hnc
  have hbc : bipartiteColor g = .error .structureError := by
    unfold bipartiteColor
    rw [hfind]
  unfold label
  rw [hbc]
  rfl

/-- Witness for claim C4: the triangle graph has no proper two-coloring and
`_label` rejects it. -/
theorem claim_C4_witness : label gTriangle = .error .structureError := by
  apply claim_C4 gTriangle (by decide)
  rintro ⟨c, hc⟩
  have h01 : c 0 ≠ c 1 := hc (0, 1) (by decide)
  have h12 : c 1 ≠ c 2 := hc (1, 2) (by decide)
  have h02 : c 0 ≠ c 2 := hc (0, 2) (by decide)
  cases hb0 : c 0 <;> cases hb1 : c 1 <;> cases hb2 : c 2 <;> simp_all

/-- Claim C5: the compiled parent set of a task consists exactly of the
tasks two hops back through its input files (with set semantics: the list is
duplicate free, so a producer reachable through several shared files appears
once, and only direct producers of consumed files are parents). -/
theorem claim_C5 (g : Graph) (t : Nat) :
    (parentsOf g t).Nodup ∧
    (∀ p, p ∈ parentsOf g t ↔ ∃ f, (p, f) ∈ g.edges ∧ (f, t) ∈ g.edges) := by
  constructor
  · exact List.nodup_dedup _
  · intro p
    unfold parentsOf
    rw [List.mem_dedup, List.mem_flatMap]
    constructor
    · rintro ⟨f, hf, hp⟩
      exact ⟨f, mem_preds.mp hp, mem_preds.mp hf⟩
    · rintro ⟨f, hpf, hft⟩
      exact ⟨f, mem_preds.mpr hft, mem_preds.mpr hpf⟩

/-- Claim C3: two distinct file nodes sharing a logical name make the
catalog pass of `write` fail with the duplicate-logical-name error; no
document is produced. -/
theorem claim_C3 (g : Graph) (fs ts : List Nat) (nm : String)
    (hsome : ∀ f ∈ fs, ((g.attr f).lfn).isSome)
    (hdup : ∃ f1 ∈ fs, ∃ f2 ∈ fs, f1 ≠ f2 ∧ (g.attr f1).lfn = (g.attr f2).lfn) :
    writeDax g fs ts nm = .error .duplicateError := by
  have hc := buildCatalog_dup g fs [] hsome (Or.inl hdup)
  unfold writeDax
  rw [hc]
  rfl

/-- Witness for claim C3: the graph with two `x`-named files is rejected. -/
theorem claim_C3_witness :
    writeDax gDupLfn [0, 2] [1] "dax" = .error .duplicateError :=
  claim_C3 gDupLfn [0, 2] [1] "dax" (by decide) (by decide)

/-- Claim C6, code-bug evidence: with no logical name containing the
`_mapper` marker, `_find_root` does not fail — the `for`/`break` scan falls
through leaving the *last* name in the loop variable, so the wrapper
transform silently uses that name's directory (`b` here) as the repository
root instead of raising the missing-marker error the spec requires. -/
theorem claim_C6_eval :
    findRoot gNoMarker [0, 1] = .ok "b" ∧
    markerScan ["a/x.dat", "b/y.dat"] = some "b/y.dat" := by decide

/-- Claim C7, counterexample: the extension `gxf` is outside the set
{json, gexf, gml, graphml} the claim fixes, yet the loader recognizes it
(dispatching to the GEXF reader) instead of failing. -/
theorem claim_C7_counterexample :
    readMethod "plan.gxf" = .ok .readGexf ∧
    lowerExt "plan.gxf" = "gxf" ∧
    "gxf" ∉ (["json", "gexf", "gml", "graphml"] : List String) := by decide

/-- Claim C7, amended: the loader dispatches by lowercased filename
extension among exactly {json, gexf, gxf, gml, graphml} — json to the JSON
reader, gexf/gxf to the GEXF reader, gml/graphml to the GraphML reader — and
any other extension fails with the unsupported-format error whose message
names that extension. -/
theorem claim_C7_amended (f : String) :
    (lowerExt f = "json" → readMethod f = .ok .readJson) ∧
    (lowerExt f = "gexf" ∨ lowerExt f = "gxf" → readMethod f = .ok .readGexf) ∧
    (lowerExt f = "gml" ∨ lowerExt f = "graphml" →
      readMethod f = .ok .readGraphml) ∧
    (lowerExt f ∉ recognizedExts →
      readMethod f = .error ("Format " ++ extOf f ++ " is not supported yet.")) := by
  refine ⟨?_, ?_, ?_, ?_⟩
  · intro h; simp [readMethod, methods, List.lookup, h]
  · rintro (h | h) <;> simp [readMethod, methods, List.lookup, h]
  · rintro (h | h) <;> simp [readMethod, methods, List.lookup, h]
  · intro h
    simp only [recognizedExts, List.mem_cons, List.not_mem_nil, or_false,
      not_or] at h
    obtain ⟨h1, h2, h3, h4, h5⟩ := h
    have b1 : (lowerExt f == "json") = false := beq_eq_false_iff_ne.mpr h1
    have b2 : (lowerExt f == "gexf") = false := beq_eq_false_iff_ne.mpr h2
    have b3 : (lowerExt f == "gxf") = false := beq_eq_false_iff_ne.mpr h3
    have b4 : (lowerExt f == "gml") = false := beq_eq_false_iff_ne.mpr h4
    have b5 : (lowerExt f == "graphml") = false := beq_eq_false_iff_ne.mpr h5
    simp [readMethod, methods, List.lookup, b1, b2, b3, b4, b5]

/-- Witness for claim C7: a `gml` file dispatches to the GraphML reader. -/
theorem claim_C7_witness : readMethod "plan.gml" = .ok .readGraphml :=
  (claim_C7_amended "plan.gml").2.2.1 (Or.inl (by decide))

/-- Claim C9: the loader lowercases the extension before the table lookup,
so two paths whose extensions agree up to case dispatch identically — in
particular an upper- or mixed-case variant of a recognized extension is
loaded with the same parser as its lowercase form rather than rejected. -/
theorem claim_C9 (f1 f2 : String) (h : lowerExt f1 = lowerExt f2) :
    (readMethod f1).isOk = (readMethod f2).isOk ∧
    ∀ r, readMethod f1 = .ok r ↔ readMethod f2 = .ok r := by
  unfold readMethod
  rw [h]
  rcases methods.lookup (lowerExt f2) with _ | r0
  · exact ⟨rfl, by intro r; simp⟩
  · exact ⟨rfl, by intro r; simp⟩

/-- Witness for claim C9: `wf.JSON` behaves exactly like `wf.json`. -/
theorem claim_C9_witness :
    readMethod "wf.JSON" = .ok .readJson ↔ readMethod "wf.json" = .ok .readJson :=
  (claim_C9 "wf.JSON" "wf.json" (by decide)).2 .readJson

/-- Claim C8, counterexample: `[0, 2]`, `[1, 3]` is a valid two-coloring of
the (disconnected) graph `gMixed`, classification succeeds, yet the role
tagging depends on which representative of `U` is inspected: node 0 is a
file while node 2 is a task, so the two runs assign different roles. -/
theorem claim_C8_counterexample :
    ValidBipartition gMixed [0, 2] [1, 3] ∧ (0 : Nat) ∈ [0, 2] ∧
    (2 : Nat) ∈ ([0, 2] : List Nat) ∧
    labelTags gMixed [0, 2] [1, 3] 0 ≠ labelTags gMixed [0, 2] [1, 3] 2 := by
  decide

/-- Claim C8, amended: when all members of the representative's coloring
class agree on whether they carry the file-identifying attribute (as is the
case for a connected graph, where each class is role homogeneous), the final
role assignment does not depend on which representative is inspected. -/
theorem claim_C8_amended (g : Graph) (U V : List Nat) (r1 r2 : Nat)
    (h1 : r1 ∈ U) (h2 : r2 ∈ U)
    (hhom : ∀ u1 ∈ U, ∀ u2 ∈ U,
      (g.attr u1).lfn.isSome = (g.attr u2).lfn.isSome) :
    labelTags g U V r1 = labelTags g U V r2 := by
  unfold labelTags
  rw [hhom r1 h1 r2 h2]

/-- Witness for claim C8: on the connected scenario graph the two file-set
representatives 0 and 2 give identical taggings. -/
theorem claim_C8_witness :
    labelTags gScenario [0, 2] [1] 0 = labelTags gScenario [0, 2] [1] 2 :=
  claim_C8_amended gScenario [0, 2] [1] 0 2 (by decide) (by decide) (by decide)

/-- Claim C10: a generator constructed from an empty graph never assigns the
`files`/`tasks` attributes, so `write` on it always raises `AttributeError`
instead of emitting an empty document. -/
theorem claim_C10 (g : Graph) (nm : String) (h : g.nodes = []) :
    initDaxgen g = .ok { graph := g, files := none, tasks := none } ∧
    writeMethod { graph := g, files := none, tasks := none } nm =
      .error .attributeError := by
  constructor
  · simp [initDaxgen, h]
  · rfl

/-- Witness for claim C10: the empty generator. -/
theorem claim_C10_witness :
    initDaxgen gEmpty = .ok { graph := gEmpty, files := none, tasks := none } ∧
    writeMethod { graph := gEmpty, files := none, tasks := none } "dax" =
      .error .attributeError :=
  claim_C10 gEmpty "dax" rfl

end DG




